import Mathlib

/-!
Verification development for the flun-mail repository.

The repository ships the installer helper (copy-files.js), the public type
surface (index.d.ts) and a configuration template.  The mail core that the
specification describes (composer, DKIM signer, transport selector, pooled
SMTP client, capture transports) is not part of the shipped sources, so those
components are modelled here from the specification text, while copy-files.js
is embedded directly from its source.
-/

namespace FlunMail

/- ===================================================================
   Part 1: embedding of copy-files.js (direct from source).
   =================================================================== -/

/-- Name of the file the installer copies, from copy-files.js. -/
def fileName : String := "Mail.js"

/-- The package directory (the value of __dirname in copy-files.js). -/
def packageDir : String := "node_modules/flun-mail"

/-- Source path: path.join(packageDir, fileName). -/
def sourceFile : String := packageDir ++ "/" ++ fileName

/-- Target path: path.join(path.resolve(packageDir, "../.."), fileName),
the project root. -/
def targetFile : String := "./" ++ fileName

/-- A filesystem snapshot: an association list from paths to file contents. -/
abbrev FileSys := List (String × String)

/-- Look up the content of a file. -/
def readFs (fs : FileSys) (p : String) : Option String :=
  (fs.find? (fun e => e.fst == p)).map (fun e => e.snd)

/-- Whether a file exists (the model of fs.existsSync). -/
def existsFs (fs : FileSys) (p : String) : Bool :=
  (readFs fs p).isSome

/-- Write a file, replacing any previous entry for the same path. -/
def writeFs (fs : FileSys) (p : String) (content : String) : FileSys :=
  (p, content) :: fs.filter (fun e => !(e.fst == p))

/-- Faults the filesystem may raise during one copyFile call: whether the
existence check throws and whether the copy call throws.  Both calls sit
inside the try block of copy-files.js, so a throw from either is caught. -/
structure FsFaults where
  existsThrows : Bool
  copyThrows : Bool
deriving DecidableEq, Repr

/-- Embedding of the copyFile function of copy-files.js.  Returns the boolean
result together with the filesystem after the call.  If the existence check
throws, the catch block returns false.  If the target exists, it returns true
without writing.  Otherwise it copies source to target; a throwing copy (or a
missing source file, which makes copyFileSync throw) is caught and yields
false.  Console logging has no filesystem effect and is omitted. -/
def copyFile (w : FsFaults) (fs : FileSys) : Bool × FileSys :=
  if w.existsThrows then (false, fs)
  else if existsFs fs targetFile then (true, fs)
  else if w.copyThrows then (false, fs)
  else
    match readFs fs sourceFile with
    | none => (false, fs)
    | some content => (true, writeFs fs targetFile content)

/- ===================================================================
   Part 2: transport selection.
   Modelled from the spec: the TransportSelector component is not in the
   shipped sources; the selection order below follows the spec precedence
   (pooled-SMTP flag, then sendmail flag, then stream-capture flag, then
   JSON-capture flag, then cloud-API block, then default direct SMTP),
   which matches the createTransport documentation in index.d.ts.
   =================================================================== -/

/-- Signal fields of a transport configuration object: whether each
transport-selecting field is set (truthy). -/
structure TransportOptions where
  pool : Bool
  sendmail : Bool
  streamTransport : Bool
  jsonTransport : Bool
  hasSES : Bool
deriving DecidableEq, Repr

/-- The concrete transport kinds a configuration can select. -/
inductive TransportKind where
  | smtpPool
  | sendmailKind
  | streamKind
  | jsonKind
  | sesKind
  | smtpKind
deriving DecidableEq, Repr

/-- Modelled from the spec: createTransport inspects the configuration and
instantiates exactly one transport, testing the signal fields in the fixed
precedence order pool, sendmail, streamTransport, jsonTransport, SES, with
direct SMTP as the default. -/
def selectTransport (o : TransportOptions) : TransportKind :=
  if o.pool then TransportKind.smtpPool
  else if o.sendmail then TransportKind.sendmailKind
  else if o.streamTransport then TransportKind.streamKind
  else if o.jsonTransport then TransportKind.jsonKind
  else if o.hasSES then TransportKind.sesKind
  else TransportKind.smtpKind

/- ===================================================================
   Part 3: message composition.
   Modelled from the spec: the MessageComposer is not in the shipped
   sources.  Text is modelled as lists of characters; the composed MIME
   document is a list of lines flattened into one stream with a newline
   separator.  The Date value and the synthesized Message-ID are constant
   tokens because clock and randomness are outside the model; custom
   headers, reply-to and priority are omitted because no claim concerns
   them.
   =================================================================== -/

/-- Character strings, modelled as lists of characters. -/
abbrev Str := List Char

/-- Convert a string literal to the character-list representation. -/
def str (s : String) : Str := s.toList

/-- The newline character used to flatten lines into the byte stream. -/
def nlChar : Char := Char.ofNat 10

/-- The double-quote character used around attachment filenames. -/
def dqChar : Char := Char.ofNat 34

/-- An attachment of a mail request.  Modelled from the spec: the content
field holds the outcome of resolving the attachment source (inline literal,
path read or URL fetch); none means resolution fails. -/
structure MailAttachment where
  filename : Str
  content : Option Str
deriving DecidableEq, Repr

/-- A mail request.  Modelled from the spec data model: sender, to/cc/bcc
recipient lists, subject, optional plain-text and HTML bodies, ordered
attachments and an optional explicit message identifier. -/
structure MailRequest where
  fromAddr : Str
  toAddrs : List Str
  cc : List Str
  bcc : List Str
  subject : Str
  text : Option Str
  html : Option Str
  attachments : List MailAttachment
  messageId : Option Str
deriving DecidableEq, Repr

/-- Errors of the composition and signing pipeline, from the spec error
taxonomy. -/
inductive MailError where
  | compositionError
  | signingError
deriving DecidableEq, Repr

/-- A composed message: the MIME document as a list of lines plus the
derived envelope metadata.  Modelled from the spec data model. -/
structure ComposedMessage where
  lines : List Str
  envFrom : Str
  envTo : List Str
deriving DecidableEq, Repr

/-- Join a list of segments with the given separator between consecutive
segments. -/
def joinWith (sep : Str) : List Str → Str
  | [] => []
  | [l] => l
  | l :: l2 :: rest => l ++ sep ++ joinWith sep (l2 :: rest)

/-- Join an address list into one header value, comma-space separated. -/
def joinAddrs (l : List Str) : Str := joinWith (str ", ") l

/-- Header marker of the From line. -/
def fromPre : Str := str "From: "

/-- Header marker of the To line. -/
def toPre : Str := str "To: "

/-- Header marker of the Cc line. -/
def ccPre : Str := str "Cc: "

/-- Header marker of the Subject line. -/
def subjectPre : Str := str "Subject: "

/-- Header marker of the Date line. -/
def datePre : Str := str "Date: "

/-- Header marker of the Message-ID line. -/
def midPre : Str := str "Message-ID: "

/-- Leading segment of an attachment part header, up to and including the
opening quote of the filename. -/
def dispoPre : Str := str "Content-Disposition: attachment; filename=\""

/-- Modelled from the spec: the stable, deterministic header block of a
composed message (From, To, Cc, Subject, Date, Message-ID).  A missing
Message-ID is synthesized at composition time. -/
def headerLines (r : MailRequest) : List Str :=
  [fromPre ++ r.fromAddr,
   toPre ++ joinAddrs r.toAddrs,
   ccPre ++ joinAddrs r.cc,
   subjectPre ++ r.subject,
   datePre ++ str "-",
   midPre ++ r.messageId.getD (str "<generated@flun-mail>")]

/-- Body lines: the plain-text part, then the HTML part when present (the
HTML alternative is placed last so it takes display precedence). -/
def bodyLines (r : MailRequest) : List Str :=
  r.text.toList ++ r.html.toList

/-- Modelled from the spec: resolve every attachment; a single failing
attachment aborts the whole resolution. -/
def resolveAtts : List MailAttachment → Option (List (Str × Str))
  | [] => some []
  | a :: as =>
    match a.content, resolveAtts as with
    | some c, some rest => some ((a.filename, c) :: rest)
    | _, _ => none

/-- MIME part lines of the resolved attachments: a disposition header naming
the file, then the encoded content line. -/
def attLines : List (Str × Str) → List Str
  | [] => []
  | (f, c) :: rest => (dispoPre ++ f ++ [dqChar]) :: c :: attLines rest

/-- Modelled from the spec: compose a mail request into a MIME document.
A request with neither body nor attachments fails with compositionError;
an unresolvable attachment aborts the whole composition with
compositionError; otherwise the header block, a blank separator line, the
body parts and the attachment parts are assembled in order and the envelope
is derived from the sender and all recipient lists. -/
def compose (r : MailRequest) : Except MailError ComposedMessage :=
  if r.text.isNone && r.html.isNone && r.attachments.isEmpty then
    Except.error MailError.compositionError
  else
    match resolveAtts r.attachments with
    | none => Except.error MailError.compositionError
    | some resolved =>
      Except.ok
        { lines := headerLines r ++ [[]] ++ bodyLines r ++ attLines resolved,
          envFrom := r.fromAddr,
          envTo := r.toAddrs ++ r.cc ++ r.bcc }

/-- Flatten a composed message into its byte stream: the lines joined with
the newline separator. -/
def rawStream (m : ComposedMessage) : Str := joinWith [nlChar] m.lines

/-- Whether the first argument is a leading segment of the second. -/
def leadsWith : Str → Str → Bool
  | [], _ => true
  | _ :: _, [] => false
  | p :: ps, c :: cs => p == c && leadsWith ps cs

/-- Whether the first argument occurs as a contiguous segment of the
second. -/
def containsSeg : Str → Str → Bool
  | p, [] => p.isEmpty
  | p, c :: rest => leadsWith p (c :: rest) || containsSeg p rest

/-- Split a stream at every occurrence of the separator character. -/
def splitOnChar (sep : Char) : Str → List Str
  | [] => [[]]
  | c :: cs =>
    if c == sep then [] :: splitOnChar sep cs
    else
      match splitOnChar sep cs with
      | [] => [[c]]
      | g :: gs => (c :: g) :: gs

/-- Drop one leading space, the one inserted by the comma-space address
separator. -/
def dropSpace : Str → Str
  | [] => []
  | c :: cs => if c == ' ' then cs else c :: cs

/-- Parse a comma-separated address header value back into the address
list. -/
def splitAddrs (s : Str) : List Str :=
  if s.isEmpty then []
  else
    match splitOnChar ',' s with
    | [] => []
    | g :: gs => g :: gs.map dropSpace

/-- Find the first line carrying the given header marker and return the rest
of that line. -/
def findHeaderLine (p : Str) : List Str → Option Str
  | [] => none
  | l :: ls => if leadsWith p l then some (l.drop p.length) else findHeaderLine p ls

/-- Re-split a flattened byte stream into lines. -/
def parseLines (stream : Str) : List Str := splitOnChar nlChar stream

/-- Recover the subject from the parsed lines. -/
def parseSubject (ls : List Str) : Option Str := findHeaderLine subjectPre ls

/-- Recover the To recipients from the parsed lines. -/
def parseTo (ls : List Str) : List Str :=
  ((findHeaderLine toPre ls).map splitAddrs).getD []

/-- Recover the Cc recipients from the parsed lines. -/
def parseCc (ls : List Str) : List Str :=
  ((findHeaderLine ccPre ls).map splitAddrs).getD []

/-- Recover the attachment filenames from the parsed lines: every line
carrying the attachment disposition marker contributes the text up to the
closing quote. -/
def parseFilenames (ls : List Str) : List Str :=
  (ls.filter (fun l => leadsWith dispoPre l)).map
    (fun l => (l.drop dispoPre.length).takeWhile (fun c => c != dqChar))

/-- Whether a character is not the line separator. -/
def cleanChar (c : Char) : Bool := c != nlChar

/-- A text that stays on one line of the stream. -/
def cleanStr (s : Str) : Bool := s.all cleanChar

/-- A text free of line separators and of the quote character that closes
attachment filenames. -/
def plainStr (s : Str) : Bool := s.all (fun c => c != nlChar && c != dqChar)

/-- A well-formed address: nonempty, on one line and free of the comma that
separates addresses in a header value. -/
def validAddr (s : Str) : Bool :=
  !s.isEmpty && cleanStr s && s.all (fun c => c != ',')

/-- Validity of an optional body part. -/
def validOptBody : Option Str → Bool
  | none => true
  | some t => plainStr t

/-- Validity of an attachment: filename and resolved content stay on one
line and are quote-free. -/
def validAtt (a : MailAttachment) : Bool :=
  plainStr a.filename &&
    (match a.content with
     | none => true
     | some c => plainStr c)

/-- A valid mail request: every textual field respects the line discipline
of the stream model. -/
def validRequest (r : MailRequest) : Bool :=
  cleanStr r.fromAddr && r.toAddrs.all validAddr && r.cc.all validAddr &&
  cleanStr r.subject && validOptBody r.text && validOptBody r.html &&
  r.attachments.all validAtt &&
  (match r.messageId with
   | none => true
   | some m => cleanStr m)

/- ===================================================================
   Part 4: signing, transports and the mailer pipeline.
   Modelled from the spec: the Signer and the transports are not in the
   shipped sources.  Transports are functions from a composed message to a
   result together with the list of network effects they perform; the
   mailer pipeline additionally reports which composed messages it handed
   to the transport.
   =================================================================== -/

/-- A DKIM key configuration.  Modelled from the spec: the wellFormed flag
abstracts whether the private key material is well formed. -/
structure DkimKey where
  domainName : Str
  keySelector : Str
  wellFormed : Bool
deriving DecidableEq, Repr

/-- Modelled from the spec: sign a composed message with every configured
key, prepending one signature header per key; malformed key material fails
with signingError and no key is silently skipped. -/
def signMessage (keys : List DkimKey) (m : ComposedMessage) :
    Except MailError ComposedMessage :=
  if keys.all (fun k => k.wellFormed) then
    Except.ok
      { m with
        lines := keys.map (fun k => str "DKIM-Signature: d=" ++ k.domainName) ++ m.lines }
  else Except.error MailError.signingError

/-- Observable network effects of a transport. -/
inductive NetEffect where
  | networkTouch
deriving DecidableEq, Repr

/-- A send result: the captured or reported message content, the accepted
recipients and the rejected recipients. -/
structure SendResult where
  message : Str
  accepted : List Str
  rejected : List Str
deriving DecidableEq, Repr

/-- A transport: consumes a composed message and yields a result together
with the network effects it performed. -/
abbrev TransportFun := ComposedMessage → Except MailError SendResult × List NetEffect

/-- Modelled from the spec: the stream capture transport returns the
composed bytes directly, accepts every envelope recipient and performs no
network effect. -/
def streamTransportSend : TransportFun := fun m =>
  (Except.ok { message := rawStream m, accepted := m.envTo, rejected := [] }, [])

/-- Sending one request through the stream capture transport: composition
followed by the capture step. -/
def streamSendMail (r : MailRequest) :
    Except MailError SendResult × List NetEffect :=
  match compose r with
  | Except.error e => (Except.error e, [])
  | Except.ok m => streamTransportSend m

/-- Modelled from the spec: the JSON capture transport returns a
JSON-serializable structural echo of the composed message directly,
accepts every envelope recipient and performs no network effect.  The
concrete JSON serialization is abstracted: the echo carries the composed
stream. -/
def jsonTransportSend : TransportFun := fun m =>
  (Except.ok { message := rawStream m, accepted := m.envTo, rejected := [] }, [])

/-- Sending one request through the JSON capture transport: composition
followed by the capture step. -/
def jsonSendMail (r : MailRequest) :
    Except MailError SendResult × List NetEffect :=
  match compose r with
  | Except.error e => (Except.error e, [])
  | Except.ok m => jsonTransportSend m

/-- Modelled from the spec: the mailer pipeline composes, signs and only
then delivers.  The third component records every composed message handed
to the transport. -/
def mailerSend (t : TransportFun) (keys : List DkimKey) (r : MailRequest) :
    Except MailError SendResult × List NetEffect × List ComposedMessage :=
  match compose r with
  | Except.error e => (Except.error e, [], [])
  | Except.ok m =>
    match signMessage keys m with
    | Except.error e => (Except.error e, [], [])
    | Except.ok m2 =>
      let r2 := t m2
      (r2.fst, r2.snd, [m2])

/- ===================================================================
   Part 5: the SMTP connection pool.
   Modelled from the spec: the pooled SMTP client is not in the shipped
   sources.  The pool is a state machine over a bounded connection set and
   a FIFO queue of pending sends; each pending send carries the scripted
   outcome of its eventual network exchange.  An adversarial schedule of
   dispatch and completion actions models concurrency; the deterministic
   driver models the pool serving every queued send to completion.
   =================================================================== -/

/-- Lifecycle state of a pooled connection: idle, sending one identified
request with its scripted outcome, or closed. -/
inductive CState where
  | idle
  | sending (sid : Nat) (ok : Bool)
  | closed
deriving DecidableEq, Repr

/-- A pooled connection: its identity, the number of sends completed on it,
and its lifecycle state. -/
structure Conn where
  id : Nat
  msgCount : Nat
  cstate : CState
deriving DecidableEq, Repr

/-- A queued send request: its identity and the scripted outcome of its
network exchange. -/
structure SendReq where
  sid : Nat
  ok : Bool
deriving DecidableEq, Repr

/-- Pool limits from the configuration. -/
structure PoolConfig where
  maxConnections : Nat
  maxMessages : Nat
deriving DecidableEq, Repr

/-- Outcome recorded for a finished send. -/
inductive Outcome where
  | completed
  | failed
deriving DecidableEq, Repr

/-- The pool state: live connections, the FIFO queue of pending sends, the
recorded outcomes, the retired (closed) connections and the next fresh
connection identifier. -/
structure PoolState where
  conns : List Conn
  queue : List SendReq
  results : List (Nat × Outcome)
  retired : List Conn
  nextId : Nat
deriving DecidableEq, Repr

/-- Whether a connection is idle. -/
def isIdleC (c : Conn) : Bool :=
  match c.cstate with
  | CState.idle => true
  | _ => false

/-- Whether a connection is in the Sending state. -/
def isSendingC (c : Conn) : Bool :=
  match c.cstate with
  | CState.sending _ _ => true
  | _ => false

/-- Number of connections simultaneously in the Sending state. -/
def sendingCount (s : PoolState) : Nat := (s.conns.filter isSendingC).length

/-- Identifiers of the live connections. -/
def connIds (s : PoolState) : List Nat := s.conns.map (fun c => c.id)

/-- Identifiers of the retired connections. -/
def retiredIds (s : PoolState) : List Nat := s.retired.map (fun c => c.id)

/-- The send identifier a connection is currently serving, when sending. -/
def inflightSid (c : Conn) : Option Nat :=
  match c.cstate with
  | CState.sending sid _ => some sid
  | _ => none

/-- Send identifiers currently in flight on the connections. -/
def inflightIds (cs : List Conn) : List Nat := cs.filterMap inflightSid

/-- Send identifiers pending in the queue. -/
def queueIds (s : PoolState) : List Nat := s.queue.map (fun r => r.sid)

/-- Send identifiers with a recorded outcome. -/
def resultIds (s : PoolState) : List Nat := s.results.map (fun p => p.fst)

/-- Send identifiers not yet finished: queued or in flight. -/
def pendingIds (s : PoolState) : List Nat := queueIds s ++ inflightIds s.conns

/-- Assign a request to the first idle connection, if any. -/
def assignFirstIdle (r : SendReq) : List Conn → Option (List Conn)
  | [] => none
  | c :: cs =>
    match c.cstate with
    | CState.idle => some ({ c with cstate := CState.sending r.sid r.ok } :: cs)
    | _ => (assignFirstIdle r cs).map (fun l => c :: l)

/-- Modelled from the spec: dequeue the next pending send.  Reuse an idle
connection when one exists; otherwise open a new connection when below
maxConnections; otherwise leave the request queued. -/
def dispatch (cfg : PoolConfig) (s : PoolState) : PoolState :=
  match s.queue with
  | [] => s
  | r :: rest =>
    match assignFirstIdle r s.conns with
    | some l => { s with conns := l, queue := rest }
    | none =>
      if s.conns.length < cfg.maxConnections then
        { s with
          conns := s.conns ++ [{ id := s.nextId, msgCount := 0, cstate := CState.sending r.sid r.ok }],
          queue := rest,
          nextId := s.nextId + 1 }
      else s

/-- Modelled from the spec: finish the send running on one connection.  On
success the message counter grows; a connection reaching maxMessages is
retired, otherwise it returns to the idle set.  On error the connection is
moved to Closed and never returned to the idle set.  Yields the optional
surviving connection, the retired connections and the recorded outcome. -/
def finishConn (cfg : PoolConfig) (c : Conn) (sid : Nat) (ok : Bool) :
    Option Conn × List Conn × (Nat × Outcome) :=
  if ok then
    if c.msgCount + 1 < cfg.maxMessages then
      (some { c with msgCount := c.msgCount + 1, cstate := CState.idle }, [],
       (sid, Outcome.completed))
    else
      (none, [{ c with msgCount := c.msgCount + 1, cstate := CState.closed }],
       (sid, Outcome.completed))
  else
    (none, [{ c with cstate := CState.closed }], (sid, Outcome.failed))

/-- Complete the send on the first connection carrying the given identifier
in the Sending state.  Returns the new live list, the newly retired
connections and the newly recorded outcomes. -/
def completeList (cfg : PoolConfig) (cid : Nat) :
    List Conn → List Conn × List Conn × List (Nat × Outcome)
  | [] => ([], [], [])
  | c :: cs =>
    match c.cstate with
    | CState.sending sid ok =>
      if c.id == cid then
        match finishConn cfg c sid ok with
        | (some c2, gone, res) => (c2 :: cs, gone, [res])
        | (none, gone, res) => (cs, gone, [res])
      else
        let t := completeList cfg cid cs
        (c :: t.fst, t.snd.fst, t.snd.snd)
    | _ =>
      let t := completeList cfg cid cs
      (c :: t.fst, t.snd.fst, t.snd.snd)

/-- Apply a completion event for the given connection to the pool state. -/
def completeConn (cfg : PoolConfig) (cid : Nat) (s : PoolState) : PoolState :=
  let t := completeList cfg cid s.conns
  { s with
    conns := t.fst,
    retired := t.snd.fst ++ s.retired,
    results := t.snd.snd ++ s.results }

/-- Events the environment can interleave: the pool dequeuing the next
pending send, or the network exchange of one connection finishing. -/
inductive PoolAction where
  | actDispatch
  | actComplete (cid : Nat)
deriving DecidableEq, Repr

/-- One pool transition. -/
def poolStep (cfg : PoolConfig) (s : PoolState) : PoolAction → PoolState
  | PoolAction.actDispatch => dispatch cfg s
  | PoolAction.actComplete cid => completeConn cfg cid s

/-- Run the pool under a schedule of actions. -/
def runPool (cfg : PoolConfig) (s : PoolState) : List PoolAction → PoolState
  | [] => s
  | a :: as => runPool cfg (poolStep cfg s a) as

/-- Initial pool state for a workload of concurrently issued sends. -/
def initPool (reqs : List SendReq) : PoolState :=
  { conns := [], queue := reqs, results := [], retired := [], nextId := 0 }

/-- Identifier of the first connection in the Sending state, if any. -/
def firstSendingId (cs : List Conn) : Option Nat :=
  (cs.find? isSendingC).map (fun c => c.id)

/-- The deterministic driver modelling the pool serving its queue: finish
an in-flight send when one exists, else dispatch the next pending send,
until the queue is empty and nothing is in flight. -/
def drive (cfg : PoolConfig) : Nat → PoolState → PoolState
  | 0, s => s
  | n + 1, s =>
    match firstSendingId s.conns with
    | some cid => drive cfg n (completeConn cfg cid s)
    | none =>
      match s.queue with
      | [] => s
      | _ :: _ => drive cfg n (dispatch cfg s)

/- ===================================================================
   Part 6: concrete inputs used by individual claims.
   =================================================================== -/

/-- The concrete request of the stream-capture claim. -/
def requestC8 : MailRequest :=
  { fromAddr := str "f@x.com", toAddrs := [str "a@x.com"], cc := [], bcc := [],
    subject := str "S", text := some (str "T"), html := none,
    attachments := [], messageId := none }

/-- A request with neither body nor attachments. -/
def emptyRequest : MailRequest :=
  { fromAddr := str "f@x.com", toAddrs := [str "a@x.com"], cc := [], bcc := [],
    subject := str "empty", text := none, html := none,
    attachments := [], messageId := none }

/-- A request with one attachment whose content cannot be resolved. -/
def badAttRequest : MailRequest :=
  { fromAddr := str "f@x.com", toAddrs := [str "a@x.com"], cc := [], bcc := [],
    subject := str "bad", text := some (str "body"),
    html := none,
    attachments := [{ filename := str "missing.txt", content := none }],
    messageId := none }

/-- A request carrying a blind-carbon-copy recipient. -/
def bccRequest : MailRequest :=
  { fromAddr := str "f@x.com", toAddrs := [str "a@x.com"], cc := [], bcc := [str "b@x.com"],
    subject := str "S", text := some (str "T"), html := none,
    attachments := [], messageId := none }

/-- A valid request exercising recipients, carbon copy and attachments. -/
def rtRequest : MailRequest :=
  { fromAddr := str "f@x.com", toAddrs := [str "a@x.com", str "b@y.org"],
    cc := [str "c@z.net"], bcc := [],
    subject := str "Hello", text := some (str "body text"), html := none,
    attachments := [{ filename := str "a.txt", content := some (str "QUJD") }],
    messageId := none }

/-- The message compose produces for rtRequest. -/
def rtMessage : ComposedMessage :=
  { lines := headerLines rtRequest ++ [[]] ++ bodyLines rtRequest ++
      attLines [(str "a.txt", str "QUJD")],
    envFrom := rtRequest.fromAddr,
    envTo := rtRequest.toAddrs ++ rtRequest.cc ++ rtRequest.bcc }

/-- Well-formedness invariant of a pool state: live and retired connection
identifiers stay below the fresh counter, live identifiers are distinct,
retired identifiers never reappear among the live connections, and message
counters respect the per-connection cap. -/
structure PoolWF (cfg : PoolConfig) (s : PoolState) : Prop where
  ids_lt : ∀ c ∈ s.conns, c.id < s.nextId
  retired_lt : ∀ c ∈ s.retired, c.id < s.nextId
  ids_nodup : (s.conns.map (fun c => c.id)).Nodup
  retired_out : ∀ i ∈ retiredIds s, i ∉ connIds s
  live_msgs : ∀ c ∈ s.conns, c.msgCount + 1 ≤ cfg.maxMessages
  retired_msgs : ∀ c ∈ s.retired, c.msgCount ≤ cfg.maxMessages

/- ===================================================================
   Theorems.
   =================================================================== -/

/-- An unresolvable attachment makes the whole resolution fail. -/
theorem resolveAtts_eq_none {atts : List MailAttachment} {a : MailAttachment}
    (ha : a ∈ atts) (hc : a.content = none) : resolveAtts atts = none := by
  induction atts with
  | nil => cases ha
  | cons b bs ih =>
    rcases List.mem_cons.mp ha with h | h
    · subst h
      unfold resolveAtts
      rw [hc]
    · have hbs := ih h
      unfold resolveAtts
      rw [hbs]
      cases b.content <;> rfl

/-- A request with an unresolvable attachment composes to a composition
error. -/
theorem compose_error_of_badatt (r : MailRequest) (a : MailAttachment)
    (ha : a ∈ r.attachments) (hc : a.content = none) :
    compose r = Except.error MailError.compositionError := by
  have hr := resolveAtts_eq_none ha hc
  have hne : r.attachments ≠ [] := by
    intro h
    rw [h] at ha
    cases ha
  have hemp : r.attachments.isEmpty = false := by
    cases h : r.attachments with
    | nil => exact absurd h hne
    | cons x xs => rfl
  simp [compose, hemp, hr]

/-- C9: when the target file Mail.js already exists in the project root and
the existence check itself does not fault, copyFile returns true and the
filesystem is returned exactly as it was: no file is written. -/
theorem copyFile_existing_target_noop (w : FsFaults) (fs : FileSys)
    (hw : w.existsThrows = false) (ht : existsFs fs targetFile = true) :
    copyFile w fs = (true, fs) := by
  simp [copyFile, hw, ht]

/-- Witness for copyFile_existing_target_noop at a concrete filesystem. -/
theorem copyFile_existing_target_noop_witness :
    copyFile { existsThrows := false, copyThrows := false }
      [(targetFile, "keep"), ("other.txt", "o")] =
      (true, [(targetFile, "keep"), ("other.txt", "o")]) :=
  copyFile_existing_target_noop
    { existsThrows := false, copyThrows := false }
    [(targetFile, "keep"), ("other.txt", "o")] rfl (by decide)

/-- C10: copyFile never throws and always yields a boolean: true exactly
when the existence check does not fault and either the target already
exists or the copy neither faults nor misses the source; every faulting
outcome is caught and turned into false.  Totality of the embedded
function is the no-throw guarantee. -/
theorem copyFile_total_boolean (w : FsFaults) (fs : FileSys) :
    (copyFile w fs).fst =
      (!w.existsThrows &&
        (existsFs fs targetFile ||
          (!w.copyThrows && (readFs fs sourceFile).isSome))) := by
  rcases w with ⟨et, ct⟩
  cases et with
  | true => simp [copyFile]
  | false =>
    cases hx : existsFs fs targetFile with
    | true => simp [copyFile, hx]
    | false =>
      cases ct with
      | true => simp [copyFile, hx]
      | false =>
        cases hr : readFs fs sourceFile <;> simp [copyFile, hx, hr]

/-- C4: transport selection follows the fixed precedence pooled SMTP,
sendmail, stream capture, JSON capture, cloud API, default direct SMTP; in
particular a configuration with both the pool and the sendmail flags set
selects the pooled SMTP transport. -/
theorem transport_precedence (o : TransportOptions) :
    (o.pool = true → selectTransport o = TransportKind.smtpPool) ∧
    (o.pool = true → o.sendmail = true →
      selectTransport o = TransportKind.smtpPool) ∧
    (o.pool = false → o.sendmail = true →
      selectTransport o = TransportKind.sendmailKind) ∧
    (o.pool = false → o.sendmail = false → o.streamTransport = true →
      selectTransport o = TransportKind.streamKind) ∧
    (o.pool = false → o.sendmail = false → o.streamTransport = false →
      o.jsonTransport = true → selectTransport o = TransportKind.jsonKind) ∧
    (o.pool = false → o.sendmail = false → o.streamTransport = false →
      o.jsonTransport = false → o.hasSES = true →
      selectTransport o = TransportKind.sesKind) ∧
    (o.pool = false → o.sendmail = false → o.streamTransport = false →
      o.jsonTransport = false → o.hasSES = false →
      selectTransport o = TransportKind.smtpKind) := by
  rcases o with ⟨p, sm, st, jt, se⟩
  cases p <;> cases sm <;> cases st <;> cases jt <;> cases se <;>
    simp [selectTransport]

/-- Witness for transport_precedence: pool and sendmail both set selects
the pooled SMTP transport. -/
theorem transport_precedence_witness :
    selectTransport
      { pool := true, sendmail := true, streamTransport := false,
        jsonTransport := false, hasSES := false } = TransportKind.smtpPool :=
  (transport_precedence
    { pool := true, sendmail := true, streamTransport := false,
      jsonTransport := false, hasSES := false }).2.1 rfl rfl

/-- C5: a request with no text body, no HTML body and no attachment always
fails composition with a composition error and never yields a message. -/
theorem compose_empty_fails (r : MailRequest)
    (h1 : r.text = none) (h2 : r.html = none) (h3 : r.attachments = []) :
    compose r = Except.error MailError.compositionError := by
  simp [compose, h1, h2, h3]

/-- Witness for compose_empty_fails at a concrete request. -/
theorem compose_empty_fails_witness :
    compose emptyRequest = Except.error MailError.compositionError :=
  compose_empty_fails emptyRequest rfl rfl rfl

/-- C6: composition is atomic and precedes every network effect: a request
with one unresolvable attachment makes the pipeline abort with an error
while no message is handed to the transport and no network effect happens,
and the same holds for every composition error and every signing error. -/
theorem composition_failure_is_atomic (t : TransportFun) (keys : List DkimKey)
    (r : MailRequest) :
    ((∃ a, a ∈ r.attachments ∧ a.content = none) →
      mailerSend t keys r = (Except.error MailError.compositionError, [], [])) ∧
    (∀ e, compose r = Except.error e →
      mailerSend t keys r = (Except.error e, [], [])) ∧
    (∀ m e, compose r = Except.ok m → signMessage keys m = Except.error e →
      mailerSend t keys r = (Except.error e, [], [])) := by
  refine ⟨?_, ?_, ?_⟩
  · rintro ⟨a, ha, hc⟩
    have h := compose_error_of_badatt r a ha hc
    simp [mailerSend, h]
  · intro e he
    simp [mailerSend, he]
  · intro m e hm he
    simp [mailerSend, hm, he]

/-- Witness for composition_failure_is_atomic at a concrete request with a
failing attachment. -/
theorem composition_failure_is_atomic_witness :
    mailerSend streamTransportSend [] badAttRequest =
      (Except.error MailError.compositionError, [], []) :=
  (composition_failure_is_atomic streamTransportSend [] badAttRequest).1
    ⟨{ filename := str "missing.txt", content := none }, by decide, rfl⟩

/-- C8: sending the concrete request through the stream capture transport
succeeds, the captured content contains the literal strings S and T, the
accepted recipients are exactly the requested recipient, nothing is
rejected; in general both capture transports, stream and JSON, perform no
network effect and succeed exactly when composition succeeds. -/
theorem stream_capture_send :
    ((streamSendMail requestC8).fst.toOption.map
      (fun res =>
        containsSeg (str "S") res.message && containsSeg (str "T") res.message &&
        (res.accepted == [str "a@x.com"]) && res.rejected.isEmpty) = some true) ∧
    (∀ r, (streamSendMail r).snd = [] ∧
      (streamSendMail r).fst.isOk = (compose r).isOk) ∧
    (∀ r, (jsonSendMail r).snd = [] ∧
      (jsonSendMail r).fst.isOk = (compose r).isOk) := by
  refine ⟨?_, ?_, ?_⟩
  · decide
  · intro r
    unfold streamSendMail
    cases h : compose r
    · exact ⟨rfl, rfl⟩
    · exact ⟨rfl, rfl⟩
  · intro r
    unfold jsonSendMail
    cases h : compose r
    · exact ⟨rfl, rfl⟩
    · exact ⟨rfl, rfl⟩

/-- A list leads with itself in front of any continuation. -/
theorem leadsWith_refl_append (p s : Str) : leadsWith p (p ++ s) = true := by
  induction p with
  | nil => rfl
  | cons c cs ih => simp [leadsWith, ih]

/-- Distinct characters compare false under boolean equality. -/
theorem beq_false_of_ne {c d : Char} (h : ¬c = d) : (c == d) = false := by
  cases hcb : c == d
  · rfl
  · exact absurd (eq_of_beq hcb) h

/-- A leading segment inherits every pointwise property of the whole. -/
theorem leadsWith_forall {p s : Str} (h : leadsWith p s = true)
    {P : Char → Prop} (hs : ∀ c ∈ s, P c) : ∀ c ∈ p, P c := by
  induction p generalizing s with
  | nil => intro c hc; cases hc
  | cons c cs ih =>
    cases s with
    | nil => simp [leadsWith] at h
    | cons d ds =>
      rw [leadsWith, Bool.and_eq_true] at h
      intro e he
      rcases List.mem_cons.mp he with h2 | h2
      · subst h2
        rw [eq_of_beq h.1]
        exact hs d (by simp)
      · exact ih h.2 (fun x hx => hs x (by simp [hx])) e h2

/-- A quote-free line never leads with the attachment disposition marker,
because the marker ends in a quote. -/
theorem not_lead_dispo {s : Str} (h : ∀ c ∈ s, ¬c = dqChar) :
    leadsWith dispoPre s = false := by
  cases hl : leadsWith dispoPre s
  · rfl
  · exact absurd rfl (leadsWith_forall hl h dqChar (by decide))

/-- Splitting a separator-free list yields the single group. -/
theorem splitOnChar_no_sep {sep : Char} : ∀ {s : Str},
    (∀ c ∈ s, ¬c = sep) → splitOnChar sep s = [s] := by
  intro s
  induction s with
  | nil => intro _; rfl
  | cons c cs ih =>
    intro h
    have hb : (c == sep) = false := beq_false_of_ne (h c (by simp))
    simp [splitOnChar, hb, ih (fun x hx => h x (by simp [hx]))]

/-- Splitting peels one separator-free group off the front. -/
theorem splitOnChar_append {sep : Char} {x : Str} (t : Str)
    (hx : ∀ c ∈ x, ¬c = sep) :
    splitOnChar sep (x ++ sep :: t) = x :: splitOnChar sep t := by
  induction x with
  | nil => simp [splitOnChar]
  | cons c cs ih =>
    have hb : (c == sep) = false := beq_false_of_ne (hx c (by simp))
    simp [splitOnChar, hb, ih (fun x h2 => hx x (by simp [h2]))]

/-- Splitting inverts joining for nonempty lists of separator-free
segments. -/
theorem splitOnChar_joinWith {sep : Char} :
    ∀ ls : List Str, ls ≠ [] → (∀ l ∈ ls, ∀ c ∈ l, ¬c = sep) →
      splitOnChar sep (joinWith [sep] ls) = ls := by
  intro ls
  induction ls with
  | nil => intro h _; exact absurd rfl h
  | cons l tail ih =>
    intro _ hall
    cases tail with
    | nil => simp [joinWith, splitOnChar_no_sep (hall l (by simp))]
    | cons l2 rest =>
      have hl := hall l (by simp)
      have hjoin : joinWith [sep] (l :: l2 :: rest) =
          l ++ sep :: joinWith [sep] (l2 :: rest) := by
        simp [joinWith]
      rw [hjoin, splitOnChar_append _ hl,
        ih (by simp) (fun x hx => hall x (by simp [hx]))]

/-- Splitting the joined address value recovers the head group and the tail
groups, each carrying the inserted space. -/
theorem splitOnChar_joinAddrs :
    ∀ (rest : List Str) (a : Str), (∀ c ∈ a, ¬c = ',') →
      (∀ b ∈ rest, ∀ c ∈ b, ¬c = ',') →
      splitOnChar ',' (joinAddrs (a :: rest)) =
        a :: rest.map (fun x => ' ' :: x) := by
  intro rest
  induction rest with
  | nil =>
    intro a ha _
    simp [joinAddrs, joinWith, splitOnChar_no_sep ha]
  | cons b rs ih =>
    intro a ha hall
    have hsep : str ", " = [',', ' '] := rfl
    have hjoin : joinAddrs (a :: b :: rs) =
        a ++ ',' :: ' ' :: joinAddrs (b :: rs) := by
      simp [joinAddrs, joinWith, hsep]
    rw [hjoin, splitOnChar_append _ ha]
    congr 1
    have hb : ((' ' : Char) == ',') = false := by decide
    have ihr := ih b (hall b (by simp)) (fun x hx => hall x (by simp [hx]))
    simp [splitOnChar, hb, ihr]

/-- Dropping the inserted space undoes the comma-space separator. -/
theorem dropSpace_cons (x : Str) : dropSpace (' ' :: x) = x := by
  simp [dropSpace]

/-- Components of a valid address: nonempty, on one line, comma-free. -/
theorem validAddr_parts {s : Str} (h : validAddr s = true) :
    s ≠ [] ∧ cleanStr s = true ∧ ∀ c ∈ s, ¬c = ',' := by
  unfold validAddr at h
  rw [Bool.and_eq_true, Bool.and_eq_true] at h
  refine ⟨?_, h.1.2, ?_⟩
  · cases s with
    | nil => simp at h
    | cons c cs => simp
  · intro c hc
    have := List.all_eq_true.mp h.2 c hc
    simpa using this

/-- Parsing the joined address header recovers the address list for valid
addresses. -/
theorem splitAddrs_joinAddrs (l : List Str) (h : ∀ x ∈ l, validAddr x = true) :
    splitAddrs (joinAddrs l) = l := by
  cases l with
  | nil => rfl
  | cons a rest =>
    obtain ⟨hane, _, haa⟩ := validAddr_parts (h a (by simp))
    have hrest : ∀ b ∈ rest, ∀ c ∈ b, ¬c = ',' :=
      fun b hb => (validAddr_parts (h b (by simp [hb]))).2.2
    have hsplit := splitOnChar_joinAddrs rest a haa hrest
    have hne : (joinAddrs (a :: rest)).isEmpty = false := by
      cases hca : a with
      | nil => exact absurd hca hane
      | cons c cs => cases rest <;> simp [joinAddrs, joinWith, hca]
    simp [splitAddrs, hne, hsplit, List.map_map, Function.comp, dropSpace_cons]
    rw [show (dropSpace ∘ fun x : Str => ' ' :: x) = (fun x : Str => x) from
      funext (fun x => dropSpace_cons x)]
    simp

/-- Finding a header skips a line that does not carry the marker. -/
theorem findHeader_cons_neg {p l : Str} {ls : List Str}
    (h : leadsWith p l = false) :
    findHeaderLine p (l :: ls) = findHeaderLine p ls := by
  simp [findHeaderLine, h]

/-- Finding a header stops at a line carrying the marker. -/
theorem findHeader_cons_pos {p l : Str} {ls : List Str}
    (h : leadsWith p l = true) :
    findHeaderLine p (l :: ls) = some (l.drop p.length) := by
  simp [findHeaderLine, h]

/-- The Subject marker does not match the From line. -/
theorem lead_subjFrom (x : Str) : leadsWith subjectPre (fromPre ++ x) = false := rfl

/-- The Subject marker does not match the To line. -/
theorem lead_subjTo (x : Str) : leadsWith subjectPre (toPre ++ x) = false := rfl

/-- The Subject marker does not match the Cc line. -/
theorem lead_subjCc (x : Str) : leadsWith subjectPre (ccPre ++ x) = false := rfl

/-- The To marker does not match the From line. -/
theorem lead_toFrom (x : Str) : leadsWith toPre (fromPre ++ x) = false := rfl

/-- The Cc marker does not match the From line. -/
theorem lead_ccFrom (x : Str) : leadsWith ccPre (fromPre ++ x) = false := rfl

/-- The Cc marker does not match the To line. -/
theorem lead_ccTo (x : Str) : leadsWith ccPre (toPre ++ x) = false := rfl

/-- The disposition marker does not match the From line. -/
theorem lead_dispoFrom (x : Str) : leadsWith dispoPre (fromPre ++ x) = false := rfl

/-- The disposition marker does not match the To line. -/
theorem lead_dispoTo (x : Str) : leadsWith dispoPre (toPre ++ x) = false := rfl

/-- The disposition marker does not match the Cc line. -/
theorem lead_dispoCc (x : Str) : leadsWith dispoPre (ccPre ++ x) = false := rfl

/-- The disposition marker does not match the Subject line. -/
theorem lead_dispoSubject (x : Str) : leadsWith dispoPre (subjectPre ++ x) = false := rfl

/-- The disposition marker does not match the Date line. -/
theorem lead_dispoDate (x : Str) : leadsWith dispoPre (datePre ++ x) = false := rfl

/-- The disposition marker does not match the Message-ID line. -/
theorem lead_dispoMid (x : Str) : leadsWith dispoPre (midPre ++ x) = false := rfl

/-- The disposition marker does not match the blank separator line. -/
theorem lead_dispoBlank : leadsWith dispoPre [] = false := rfl

/-- Components of plain text: newline-free and quote-free. -/
theorem plain_parts {s : Str} (h : plainStr s = true) :
    (∀ c ∈ s, ¬c = nlChar) ∧ (∀ c ∈ s, ¬c = dqChar) := by
  unfold plainStr at h
  have h2 := List.all_eq_true.mp h
  constructor <;> intro c hc
  · have := h2 c hc
    simp at this
    exact this.1
  · have := h2 c hc
    simp at this
    exact this.2

/-- Plain text stays on one line. -/
theorem plain_clean {s : Str} (h : plainStr s = true) : cleanStr s = true := by
  unfold cleanStr
  rw [List.all_eq_true]
  intro c hc
  simpa [cleanChar] using (plain_parts h).1 c hc

/-- Plain text is quote-free. -/
theorem plain_nodq {s : Str} (h : plainStr s = true) : ∀ c ∈ s, ¬c = dqChar :=
  (plain_parts h).2

/-- A valid address stays on one line. -/
theorem validAddr_clean {s : Str} (h : validAddr s = true) : cleanStr s = true :=
  (validAddr_parts h).2.1

/-- Line discipline is preserved by concatenation. -/
theorem clean_append {a b : Str} (ha : cleanStr a = true) (hb : cleanStr b = true) :
    cleanStr (a ++ b) = true := by
  unfold cleanStr at *
  rw [List.all_append, ha, hb]
  rfl

/-- Joining clean segments with a clean separator stays clean. -/
theorem joinWith_clean {sep : Str} (hsep : cleanStr sep = true) :
    ∀ ls : List Str, (∀ l ∈ ls, cleanStr l = true) →
      cleanStr (joinWith sep ls) = true := by
  intro ls
  induction ls with
  | nil => intro _; rfl
  | cons l tail ih =>
    intro hall
    cases tail with
    | nil => exact hall l (by simp)
    | cons l2 rest =>
      have h1 := hall l (by simp)
      have h2 := ih (fun x hx => hall x (by simp [hx]))
      simp only [joinWith]
      exact clean_append (clean_append h1 hsep) h2

/-- A joined address header stays on one line. -/
theorem joinAddrs_clean (l : List Str) (h : ∀ x ∈ l, cleanStr x = true) :
    cleanStr (joinAddrs l) = true :=
  joinWith_clean (by decide) l h

/-- Every line of the attachment parts is a disposition line of some
resolved attachment or its content line. -/
theorem attLines_mem {res : List (Str × Str)} :
    ∀ l ∈ attLines res,
      (∃ fc, fc ∈ res ∧ l = dispoPre ++ fc.fst ++ [dqChar]) ∨
      (∃ fc, fc ∈ res ∧ l = fc.snd) := by
  induction res with
  | nil => intro l hl; cases hl
  | cons fc rest ih =>
    intro l hl
    obtain ⟨f, c⟩ := fc
    rcases List.mem_cons.mp hl with h | h
    · exact Or.inl ⟨(f, c), by simp, h⟩
    · rcases List.mem_cons.mp h with h2 | h2
      · exact Or.inr ⟨(f, c), by simp, h2⟩
      · rcases ih l h2 with ⟨fc2, hm, he⟩ | ⟨fc2, hm, he⟩
        · exact Or.inl ⟨fc2, by simp [hm], he⟩
        · exact Or.inr ⟨fc2, by simp [hm], he⟩

/-- Successful resolution keeps the filenames in order and draws every
resolved pair from an attachment of the request. -/
theorem resolveAtts_some : ∀ (atts : List MailAttachment) (res : List (Str × Str)),
    resolveAtts atts = some res →
    res.map (fun fc => fc.fst) = atts.map (fun a => a.filename) ∧
    ∀ fc ∈ res, ∃ a, a ∈ atts ∧ fc.fst = a.filename ∧ a.content = some fc.snd := by
  intro atts
  induction atts with
  | nil =>
    intro res h
    unfold resolveAtts at h
    cases h
    exact ⟨rfl, by intro fc hfc; cases hfc⟩
  | cons a as ih =>
    intro res h
    unfold resolveAtts at h
    cases hca : a.content with
    | none => rw [hca] at h; cases h
    | some c =>
      rw [hca] at h
      cases hra : resolveAtts as with
      | none => rw [hra] at h; cases h
      | some rest =>
        rw [hra] at h
        cases h
        obtain ⟨ih1, ih2⟩ := ih rest hra
        constructor
        · simp [ih1]
        · intro fc hfc
          rcases List.mem_cons.mp hfc with h2 | h2
          · exact ⟨a, by simp, by simp [h2], by simp [h2, hca]⟩
          · obtain ⟨a2, hm, he, hc2⟩ := ih2 fc h2
            exact ⟨a2, by simp [hm], he, hc2⟩

/-- Shape of a successful composition: the attachments resolve and the
lines are the header block, the blank separator, the body and the
attachment parts. -/
theorem compose_ok_shape (r : MailRequest) (m : ComposedMessage)
    (hc : compose r = Except.ok m) :
    ∃ res, resolveAtts r.attachments = some res ∧
      m.lines = headerLines r ++ [[]] ++ bodyLines r ++ attLines res := by
  unfold compose at hc
  split at hc
  · cases hc
  · split at hc
    · cases hc
    · cases hc
      exact ⟨_, by assumption, rfl⟩

/-- Taking up to the closing quote recovers a quote-free filename. -/
theorem takeWhile_no_dq {f : Str} (hf : ∀ c ∈ f, ¬c = dqChar) :
    (f ++ [dqChar]).takeWhile (fun c => c != dqChar) = f := by
  induction f with
  | nil => simp [List.takeWhile]
  | cons c cs ih =>
    have h1 : (c != dqChar) = true := by simpa using hf c (by simp)
    simp [List.takeWhile, h1, ih (fun x hx => hf x (by simp [hx]))]

/-- Scanning the attachment part lines for disposition markers recovers
exactly the resolved filenames, in order. -/
theorem attLines_filenames : ∀ (res : List (Str × Str)),
    (∀ fc ∈ res, ∀ c ∈ fc.fst, ¬c = dqChar) →
    (∀ fc ∈ res, ∀ c ∈ fc.snd, ¬c = dqChar) →
    ((attLines res).filter (fun l => leadsWith dispoPre l)).map
      (fun l => (l.drop dispoPre.length).takeWhile (fun c => c != dqChar)) =
      res.map (fun fc => fc.fst) := by
  intro res
  induction res with
  | nil => intro _ _; rfl
  | cons fc rest ih =>
    intro hf hc
    obtain ⟨f, c⟩ := fc
    have h1 : leadsWith dispoPre (dispoPre ++ (f ++ [dqChar])) = true :=
      leadsWith_refl_append _ _
    have h2 : leadsWith dispoPre c = false :=
      not_lead_dispo (hc (f, c) (by simp))
    have hrec := ih (fun x hx => hf x (by simp [hx])) (fun x hx => hc x (by simp [hx]))
    simp [attLines, List.filter_cons, h1, h2, hrec]
    exact takeWhile_no_dq (hf (f, c) (by simp))

/-- A clean text is newline-free, pointwise. -/
theorem cleanStr_forall {s : Str} (h : cleanStr s = true) : ∀ c ∈ s, ¬c = nlChar := by
  intro c hc
  have := List.all_eq_true.mp h c hc
  simpa [cleanChar] using this

/-- C7 (amended): composing a valid request and re-parsing the flattened
byte stream recovers the subject, the To recipients, the Cc recipients and
the attachment filenames.  Bcc recipients are excluded: composition emits
no Bcc header, so they do not appear in the stream. -/
theorem compose_parse_roundtrip (r : MailRequest) (m : ComposedMessage)
    (hv : validRequest r = true) (hc : compose r = Except.ok m) :
    parseSubject (parseLines (rawStream m)) = some r.subject ∧
    parseTo (parseLines (rawStream m)) = r.toAddrs ∧
    parseCc (parseLines (rawStream m)) = r.cc ∧
    parseFilenames (parseLines (rawStream m)) =
      r.attachments.map (fun a => a.filename) := by
  obtain ⟨res, hres, hlines⟩ := compose_ok_shape r m hc
  unfold validRequest at hv
  rw [Bool.and_eq_true, Bool.and_eq_true, Bool.and_eq_true, Bool.and_eq_true,
    Bool.and_eq_true, Bool.and_eq_true, Bool.and_eq_true] at hv
  obtain ⟨⟨⟨⟨⟨⟨⟨hfrom, hto⟩, hcc⟩, hsubj⟩, htext⟩, hhtml⟩, hatts⟩, hmid⟩ := hv
  have htoV : ∀ x ∈ r.toAddrs, validAddr x = true := List.all_eq_true.mp hto
  have hccV : ∀ x ∈ r.cc, validAddr x = true := List.all_eq_true.mp hcc
  have hattsV : ∀ a ∈ r.attachments, validAtt a = true := List.all_eq_true.mp hatts
  obtain ⟨hnames, hdraw⟩ := resolveAtts_some r.attachments res hres
  have hresFp : ∀ fc ∈ res, plainStr fc.fst = true := by
    intro fc hfc
    obtain ⟨a, ham, hfn, _⟩ := hdraw fc hfc
    have hva := hattsV a ham
    unfold validAtt at hva
    rw [Bool.and_eq_true] at hva
    rw [hfn]
    exact hva.1
  have hresCp : ∀ fc ∈ res, plainStr fc.snd = true := by
    intro fc hfc
    obtain ⟨a, ham, _, hco⟩ := hdraw fc hfc
    have hva := hattsV a ham
    unfold validAtt at hva
    rw [Bool.and_eq_true] at hva
    have h2 := hva.2
    rw [hco] at h2
    exact h2
  have hresF : ∀ fc ∈ res, ∀ c ∈ fc.fst, ¬c = dqChar :=
    fun fc hfc => plain_nodq (hresFp fc hfc)
  have hresC : ∀ fc ∈ res, ∀ c ∈ fc.snd, ¬c = dqChar :=
    fun fc hfc => plain_nodq (hresCp fc hfc)
  have hbodyPlain : ∀ l ∈ bodyLines r, plainStr l = true := by
    intro l hb
    unfold bodyLines at hb
    rcases List.mem_append.mp hb with h | h
    · cases ht : r.text with
      | none => rw [ht] at h; cases h
      | some t =>
        rw [ht] at h
        simp at h
        subst h
        have h2 := htext
        unfold validOptBody at h2
        rw [ht] at h2
        exact h2
    · cases hh : r.html with
      | none => rw [hh] at h; cases h
      | some t =>
        rw [hh] at h
        simp at h
        subst h
        have h2 := hhtml
        unfold validOptBody at h2
        rw [hh] at h2
        exact h2
  have hclean : ∀ l ∈ m.lines, ∀ c ∈ l, ¬c = nlChar := by
    rw [hlines]
    intro l hl
    rcases List.mem_append.mp hl with h1 | hatt
    · rcases List.mem_append.mp h1 with h3 | hbody
      · rcases List.mem_append.mp h3 with hhead | hblank
        · refine cleanStr_forall ?_
          simp [headerLines] at hhead
          rcases hhead with h | h | h | h | h | h
          · rw [h]
            exact clean_append (by decide) hfrom
          · rw [h]
            exact clean_append (by decide)
              (joinAddrs_clean _ (fun x hx => validAddr_clean (htoV x hx)))
          · rw [h]
            exact clean_append (by decide)
              (joinAddrs_clean _ (fun x hx => validAddr_clean (hccV x hx)))
          · rw [h]
            exact clean_append (by decide) hsubj
          · rw [h]
            decide
          · rw [h]
            cases hm2 : r.messageId with
            | none => decide
            | some v =>
              rw [hm2] at hmid
              exact clean_append (by decide) hmid
        · simp at hblank
          rw [hblank]
          intro c hcm
          cases hcm
      · exact fun c hcm => (plain_parts (hbodyPlain l hbody)).1 c hcm
    · rcases attLines_mem l hatt with ⟨fc, hm2, he⟩ | ⟨fc, hm2, he⟩
      · rw [he]
        intro c hcm
        rcases List.mem_append.mp hcm with h5 | h5
        · rcases List.mem_append.mp h5 with h6 | h6
          · exact (by decide : ∀ c ∈ dispoPre, ¬c = nlChar) c h6
          · exact (plain_parts (hresFp fc hm2)).1 c h6
        · simp at h5
          rw [h5]
          decide
      · rw [he]
        exact (plain_parts (hresCp fc hm2)).1
  have hne : m.lines ≠ [] := by
    rw [hlines]
    simp [headerLines]
  have hpl : parseLines (rawStream m) = m.lines :=
    splitOnChar_joinWith m.lines hne hclean
  have hbodyF : (bodyLines r).filter (fun l => leadsWith dispoPre l) = [] := by
    rw [List.filter_eq_nil_iff]
    intro l hlb
    simp [not_lead_dispo (plain_nodq (hbodyPlain l hlb))]
  rw [hpl, hlines]
  unfold parseSubject parseTo parseCc parseFilenames
  simp only [headerLines, List.cons_append, List.nil_append]
  refine ⟨?_, ?_, ?_, ?_⟩
  · rw [findHeader_cons_neg (lead_subjFrom _), findHeader_cons_neg (lead_subjTo _),
      findHeader_cons_neg (lead_subjCc _),
      findHeader_cons_pos (leadsWith_refl_append _ _), List.drop_left]
  · rw [findHeader_cons_neg (lead_toFrom _),
      findHeader_cons_pos (leadsWith_refl_append _ _), List.drop_left]
    simp [splitAddrs_joinAddrs r.toAddrs htoV]
  · rw [findHeader_cons_neg (lead_ccFrom _), findHeader_cons_neg (lead_ccTo _),
      findHeader_cons_pos (leadsWith_refl_append _ _), List.drop_left]
    simp [splitAddrs_joinAddrs r.cc hccV]
  · simp only [List.filter_cons, lead_dispoFrom, lead_dispoTo, lead_dispoCc,
      lead_dispoSubject, lead_dispoDate, lead_dispoMid, lead_dispoBlank,
      List.filter_append, hbodyF, Bool.false_eq_true, if_false, List.nil_append]
    rw [attLines_filenames res hresF hresC, hnames]

/-- C7 (counterexample to the claim as stated): the bcc recipient of a
request never appears in the composed byte stream, so no re-parsing of the
stream can recover the full original recipient set. -/
theorem roundtrip_bcc_counterexample :
    bccRequest.bcc = [str "b@x.com"] ∧
    (compose bccRequest).toOption.map
      (fun m => containsSeg (str "b@x.com") (rawStream m)) = some false := by
  decide

/-- Witness for compose_parse_roundtrip at a concrete valid request. -/
theorem compose_parse_roundtrip_witness :
    parseSubject (parseLines (rawStream rtMessage)) = some rtRequest.subject ∧
    parseTo (parseLines (rawStream rtMessage)) = rtRequest.toAddrs ∧
    parseCc (parseLines (rawStream rtMessage)) = rtRequest.cc ∧
    parseFilenames (parseLines (rawStream rtMessage)) =
      rtRequest.attachments.map (fun a => a.filename) :=
  compose_parse_roundtrip rtRequest rtMessage (by decide) rfl

/-- Idleness characterized by the state constructor. -/
theorem isIdleC_iff {c : Conn} : isIdleC c = true ↔ c.cstate = CState.idle := by
  cases hst : c.cstate <;> simp [isIdleC, hst]

/-- Sending characterized by the state constructor. -/
theorem isSendingC_iff {c : Conn} :
    isSendingC c = true ↔ ∃ sid ok, c.cstate = CState.sending sid ok := by
  cases hst : c.cstate <;> simp [isSendingC, hst]

/-- Assigning to an idle head connection. -/
theorem assignFirstIdle_cons_idle {rq : SendReq} {c : Conn} {cs : List Conn}
    (h : c.cstate = CState.idle) :
    assignFirstIdle rq (c :: cs) =
      some ({ c with cstate := CState.sending rq.sid rq.ok } :: cs) := by
  obtain ⟨i, mc, cst⟩ := c
  subst h
  rfl

/-- Assignment skips a non-idle head connection. -/
theorem assignFirstIdle_cons_other {rq : SendReq} {c : Conn} {cs : List Conn}
    (h : isIdleC c = false) :
    assignFirstIdle rq (c :: cs) =
      (assignFirstIdle rq cs).map (fun l => c :: l) := by
  obtain ⟨i, mc, cst⟩ := c
  cases cst with
  | idle => simp [isIdleC] at h
  | sending sid ok => rfl
  | closed => rfl

/-- Completion skips a head connection that is not sending. -/
theorem completeList_cons_nonsending {cfg : PoolConfig} {cid : Nat} {c : Conn}
    {cs : List Conn} (h : isSendingC c = false) :
    completeList cfg cid (c :: cs) =
      (c :: (completeList cfg cid cs).fst,
       (completeList cfg cid cs).snd.fst,
       (completeList cfg cid cs).snd.snd) := by
  obtain ⟨i, mc, cst⟩ := c
  cases cst with
  | idle => rfl
  | sending sid ok => simp [isSendingC] at h
  | closed => rfl

/-- Completion skips a sending head connection with a different
identifier. -/
theorem completeList_cons_miss {cfg : PoolConfig} {cid : Nat} {c : Conn}
    {cs : List Conn} {sid : Nat} {ok : Bool}
    (hst : c.cstate = CState.sending sid ok) (hid : (c.id == cid) = false) :
    completeList cfg cid (c :: cs) =
      (c :: (completeList cfg cid cs).fst,
       (completeList cfg cid cs).snd.fst,
       (completeList cfg cid cs).snd.snd) := by
  obtain ⟨i, mc, cst⟩ := c
  subst hst
  simp only [completeList, hid]
  simp

/-- Completion finishes a matching sending head connection that survives. -/
theorem completeList_cons_hit_keep {cfg : PoolConfig} {cid : Nat} {c : Conn}
    {cs : List Conn} {sid : Nat} {ok : Bool} {c2 : Conn} {gone : List Conn}
    {res : Nat × Outcome}
    (hst : c.cstate = CState.sending sid ok) (hid : c.id = cid)
    (hf : finishConn cfg c sid ok = (some c2, gone, res)) :
    completeList cfg cid (c :: cs) = (c2 :: cs, gone, [res]) := by
  obtain ⟨i, mc, cst⟩ := c
  subst hst
  subst hid
  simp only [completeList, beq_self_eq_true, if_true]
  rw [hf]

/-- Completion finishes a matching sending head connection that is
retired. -/
theorem completeList_cons_hit_drop {cfg : PoolConfig} {cid : Nat} {c : Conn}
    {cs : List Conn} {sid : Nat} {ok : Bool} {gone : List Conn}
    {res : Nat × Outcome}
    (hst : c.cstate = CState.sending sid ok) (hid : c.id = cid)
    (hf : finishConn cfg c sid ok = (none, gone, res)) :
    completeList cfg cid (c :: cs) = (cs, gone, [res]) := by
  obtain ⟨i, mc, cst⟩ := c
  subst hst
  subst hid
  simp only [completeList, beq_self_eq_true, if_true]
  rw [hf]

/-- The three possible outcomes of finishing a send on one connection. -/
theorem finishConn_cases (cfg : PoolConfig) (c : Conn) (sid : Nat) (ok : Bool) :
    (finishConn cfg c sid ok =
        (some { c with msgCount := c.msgCount + 1, cstate := CState.idle }, [],
         (sid, Outcome.completed)) ∧ ok = true ∧ c.msgCount + 1 < cfg.maxMessages) ∨
    (finishConn cfg c sid ok =
        (none, [{ c with msgCount := c.msgCount + 1, cstate := CState.closed }],
         (sid, Outcome.completed)) ∧ ok = true ∧ ¬c.msgCount + 1 < cfg.maxMessages) ∨
    (finishConn cfg c sid ok =
        (none, [{ c with cstate := CState.closed }], (sid, Outcome.failed)) ∧
      ok = false) := by
  cases ok with
  | false => right; right; exact ⟨rfl, rfl⟩
  | true =>
    by_cases h2 : c.msgCount + 1 < cfg.maxMessages
    · left
      exact ⟨by simp [finishConn, h2], rfl, h2⟩
    · right; left
      exact ⟨by simp [finishConn, h2], rfl, h2⟩

/-- Assignment keeps the length of the connection list. -/
theorem assign_length {rq : SendReq} : ∀ {cs l : List Conn},
    assignFirstIdle rq cs = some l → l.length = cs.length := by
  intro cs
  induction cs with
  | nil => intro l h; simp [assignFirstIdle] at h
  | cons c cs ih =>
    intro l h
    by_cases hi : isIdleC c = true
    · rw [assignFirstIdle_cons_idle (isIdleC_iff.mp hi)] at h
      cases h
      simp
    · rw [assignFirstIdle_cons_other (by simpa using hi)] at h
      rcases Option.map_eq_some'.mp h with ⟨l2, hl2, rfl⟩
      simp [ih hl2]

/-- Completion never grows the connection list. -/
theorem completeList_length (cfg : PoolConfig) (cid : Nat) :
    ∀ cs : List Conn, (completeList cfg cid cs).fst.length ≤ cs.length := by
  intro cs
  induction cs with
  | nil => simp [completeList]
  | cons c cs ih =>
    by_cases hs : isSendingC c = true
    · obtain ⟨sid, ok, hst⟩ := isSendingC_iff.mp hs
      cases hid : c.id == cid with
      | false =>
        rw [completeList_cons_miss hst hid]
        simpa using ih
      | true =>
        have hideq : c.id = cid := by simpa using hid
        rcases finishConn_cases cfg c sid ok with ⟨hf, _, _⟩ | ⟨hf, _, _⟩ | ⟨hf, _⟩
        · rw [completeList_cons_hit_keep hst hideq hf]
          simp
        · rw [completeList_cons_hit_drop hst hideq hf]
          simp [Nat.le_succ]
        · rw [completeList_cons_hit_drop hst hideq hf]
          simp [Nat.le_succ]
    · rw [completeList_cons_nonsending (by simpa using hs)]
      simpa using ih

/-- One pool step keeps the connection count within the limit. -/
theorem poolStep_size {cfg : PoolConfig} {s : PoolState} {a : PoolAction}
    (h : s.conns.length ≤ cfg.maxConnections) :
    (poolStep cfg s a).conns.length ≤ cfg.maxConnections := by
  cases a with
  | actDispatch =>
    unfold poolStep dispatch
    cases hq : s.queue with
    | nil => exact h
    | cons rq rest =>
      cases ha : assignFirstIdle rq s.conns with
      | some l =>
        simp only [ha]
        simpa [assign_length ha] using h
      | none =>
        simp only [ha]
        by_cases hlt : s.conns.length < cfg.maxConnections
        · simp only [if_pos hlt]
          simp [List.length_append]
          omega
        · simp only [if_neg hlt]
          exact h
  | actComplete cid =>
    unfold poolStep completeConn
    exact le_trans (completeList_length cfg cid s.conns) h

/-- A whole run keeps the connection count within the limit. -/
theorem runPool_size {cfg : PoolConfig} : ∀ (acts : List PoolAction) (s : PoolState),
    s.conns.length ≤ cfg.maxConnections →
    (runPool cfg s acts).conns.length ≤ cfg.maxConnections := by
  intro acts
  induction acts with
  | nil => intro s h; exact h
  | cons a as ih =>
    intro s h
    exact ih _ (poolStep_size h)

/-- The number of sending connections is at most the number of
connections. -/
theorem sendingCount_le (s : PoolState) : sendingCount s ≤ s.conns.length :=
  List.length_filter_le _ _

/-- A non-sending head connection contributes no in-flight identifier. -/
theorem inflight_cons_nonsending {c : Conn} {cs : List Conn}
    (h : isSendingC c = false) :
    inflightIds (c :: cs) = inflightIds cs := by
  obtain ⟨i, mc, cst⟩ := c
  cases cst with
  | idle => rfl
  | sending sid ok => simp [isSendingC] at h
  | closed => rfl

/-- A sending head connection contributes its send identifier. -/
theorem inflight_cons_sending {c : Conn} {cs : List Conn} {sid : Nat} {ok : Bool}
    (h : c.cstate = CState.sending sid ok) :
    inflightIds (c :: cs) = sid :: inflightIds cs := by
  obtain ⟨i, mc, cst⟩ := c
  subst h
  rfl

/-- No sending connection means no in-flight identifier. -/
theorem inflight_nil {cs : List Conn} (h : ∀ c ∈ cs, isSendingC c = false) :
    inflightIds cs = [] := by
  induction cs with
  | nil => rfl
  | cons c cs ih =>
    rw [inflight_cons_nonsending (h c (by simp))]
    exact ih (fun d hd => h d (by simp [hd]))

/-- No sending connection means the sending filter is empty. -/
theorem filter_sending_nil {cs : List Conn} (h : ∀ c ∈ cs, isSendingC c = false) :
    cs.filter isSendingC = [] :=
  List.filter_eq_nil_iff.mpr (fun c hc => by simp [h c hc])

/-- A failed assignment means no connection is idle. -/
theorem assignFirstIdle_none {rq : SendReq} : ∀ {cs : List Conn},
    assignFirstIdle rq cs = none → ∀ c ∈ cs, isIdleC c = false := by
  intro cs
  induction cs with
  | nil => intro _ c hc; cases hc
  | cons c cs ih =>
    intro h d hd
    by_cases hi : isIdleC c = true
    · rw [assignFirstIdle_cons_idle (isIdleC_iff.mp hi)] at h
      cases h
    · rw [assignFirstIdle_cons_other (by simpa using hi)] at h
      rcases List.mem_cons.mp hd with rfl | hd2
      · simpa using hi
      · exact ih (Option.map_eq_none'.mp h) d hd2

/-- A successful assignment is a point update of the first idle
connection. -/
theorem assignFirstIdle_some {rq : SendReq} : ∀ {cs l : List Conn},
    assignFirstIdle rq cs = some l →
    ∃ pre c post, cs = pre ++ c :: post ∧ c.cstate = CState.idle ∧
      l = pre ++ { c with cstate := CState.sending rq.sid rq.ok } :: post := by
  intro cs
  induction cs with
  | nil => intro l h; simp [assignFirstIdle] at h
  | cons c cs ih =>
    intro l h
    by_cases hi : isIdleC c = true
    · rw [assignFirstIdle_cons_idle (isIdleC_iff.mp hi)] at h
      cases h
      exact ⟨[], c, cs, rfl, isIdleC_iff.mp hi, rfl⟩
    · rw [assignFirstIdle_cons_other (by simpa using hi)] at h
      rcases Option.map_eq_some'.mp h with ⟨l2, hl2, rfl⟩
      obtain ⟨pre, c2, post, hcs, hc2, hl⟩ := ih hl2
      exact ⟨c :: pre, c2, post, by rw [hcs]; rfl, hc2, by rw [hl]; rfl⟩

/-- Every connection is idle, sending or closed. -/
theorem conn_state_cases (c : Conn) :
    isIdleC c = true ∨ isSendingC c = true ∨ c.cstate = CState.closed := by
  obtain ⟨i, mc, cst⟩ := c
  cases cst <;> simp [isIdleC, isSendingC]

/-- With no idle, no sending and no closed connection, the pool is empty. -/
theorem conns_nil {cs : List Conn} (h1 : ∀ c ∈ cs, isIdleC c = false)
    (h2 : ∀ c ∈ cs, isSendingC c = false)
    (h3 : ∀ c ∈ cs, c.cstate ≠ CState.closed) : cs = [] := by
  cases cs with
  | nil => rfl
  | cons c cs =>
    rcases conn_state_cases c with h | h | h
    · rw [h1 c (by simp)] at h
      cases h
    · rw [h2 c (by simp)] at h
      cases h
    · exact absurd h (h3 c (by simp))

/-- Completing the first sending connection: the completion succeeds,
removes exactly that send from flight, records its outcome, and keeps
every other connection. -/
theorem completeFirst_progress (cfg : PoolConfig) : ∀ (cs : List Conn) (c : Conn),
    cs.find? isSendingC = some c →
    ∃ sid ok l gone out,
      c.cstate = CState.sending sid ok ∧
      completeList cfg c.id cs = (l, gone, [(sid, out)]) ∧
      (l.filter isSendingC).length + 1 = (cs.filter isSendingC).length ∧
      inflightIds cs = sid :: inflightIds l ∧
      (∀ d ∈ l, d ∈ cs ∨ d.cstate = CState.idle) := by
  intro cs
  induction cs with
  | nil => intro c h; simp at h
  | cons c0 cs ih =>
    intro c h
    cases hp : isSendingC c0 with
    | true =>
      rw [List.find?_cons_of_pos _ hp] at h
      injection h with h2
      subst h2
      obtain ⟨sid, ok, hst⟩ := isSendingC_iff.mp hp
      rcases finishConn_cases cfg c0 sid ok with ⟨hf, _, _⟩ | ⟨hf, _, _⟩ | ⟨hf, _⟩
      · refine ⟨sid, ok,
          { c0 with msgCount := c0.msgCount + 1, cstate := CState.idle } :: cs, [],
          Outcome.completed, hst, completeList_cons_hit_keep hst rfl hf, ?_, ?_, ?_⟩
        · have hc2 : isSendingC
              { c0 with msgCount := c0.msgCount + 1, cstate := CState.idle } = false := rfl
          simp [List.filter_cons, hp, hc2]
        · rw [inflight_cons_sending hst,
            inflight_cons_nonsending (by simp [isSendingC])]
        · intro d hd
          rcases List.mem_cons.mp hd with rfl | hd2
          · right; rfl
          · left; exact List.mem_cons_of_mem _ hd2
      · refine ⟨sid, ok, cs, _, Outcome.completed, hst,
          completeList_cons_hit_drop hst rfl hf, ?_, ?_, ?_⟩
        · simp [List.filter_cons, hp]
        · rw [inflight_cons_sending hst]
        · intro d hd
          left
          exact List.mem_cons_of_mem _ hd
      · refine ⟨sid, ok, cs, _, Outcome.failed, hst,
          completeList_cons_hit_drop hst rfl hf, ?_, ?_, ?_⟩
        · simp [List.filter_cons, hp]
        · rw [inflight_cons_sending hst]
        · intro d hd
          left
          exact List.mem_cons_of_mem _ hd
    | false =>
      rw [List.find?_cons_of_neg _ (by simp [hp])] at h
      obtain ⟨sid, ok, l, gone, out, hst, hcl, hcount, hinf, hmem⟩ := ih c h
      refine ⟨sid, ok, c0 :: l, gone, out, hst, ?_, ?_, ?_, ?_⟩
      · rw [completeList_cons_nonsending hp, hcl]
      · simp only [List.filter_cons, hp]
        simpa using hcount
      · rw [inflight_cons_nonsending hp, inflight_cons_nonsending hp]
        exact hinf
      · intro d hd
        rcases List.mem_cons.mp hd with rfl | hd2
        · left; simp
        · rcases hmem d hd2 with h2 | h2
          · left; exact List.mem_cons_of_mem _ h2
          · right; exact h2

/-- The driver empties the queue and the flight set and records an outcome
for every pending send, given enough fuel. -/
theorem drive_spec (cfg : PoolConfig) (hmax : 1 ≤ cfg.maxConnections) :
    ∀ (fuel : Nat) (s : PoolState),
      (∀ c ∈ s.conns, c.cstate ≠ CState.closed) →
      2 * s.queue.length + sendingCount s ≤ fuel →
      (drive cfg fuel s).queue = [] ∧
      sendingCount (drive cfg fuel s) = 0 ∧
      (∀ i, i ∈ pendingIds s ∨ i ∈ resultIds s →
        i ∈ resultIds (drive cfg fuel s)) := by
  intro fuel
  induction fuel with
  | zero =>
    intro s hlo hm
    have hql : s.queue.length = 0 := by omega
    have hq : s.queue = [] := List.length_eq_zero.mp hql
    have hsc : sendingCount s = 0 := by omega
    have hns : ∀ c ∈ s.conns, isSendingC c = false := by
      intro c hc
      have hfe : s.conns.filter isSendingC = [] :=
        List.length_eq_zero.mp hsc
      have := List.filter_eq_nil_iff.mp hfe c hc
      simpa using this
    refine ⟨hq, hsc, ?_⟩
    intro i hi
    rcases hi with hi | hi
    · unfold pendingIds queueIds at hi
      rw [hq, inflight_nil hns] at hi
      cases hi
    · exact hi
  | succ n ih =>
    intro s hlo hm
    cases hfs : firstSendingId s.conns with
    | some cid =>
      unfold firstSendingId at hfs
      rcases Option.map_eq_some'.mp hfs with ⟨c, hfind, hcid⟩
      obtain ⟨sid, ok, l, gone, out, hst, hcl, hcount, hinf, hmem⟩ :=
        completeFirst_progress cfg s.conns c hfind
      have hs2 : completeConn cfg cid s =
          ⟨l, s.queue, (sid, out) :: s.results, gone ++ s.retired, s.nextId⟩ := by
        subst hcid
        unfold completeConn
        rw [hcl]
        rfl
      have hstep : drive cfg (n + 1) s =
          drive cfg n (completeConn cfg cid s) := by
        simp [drive, firstSendingId, hfind, hcid]
      rw [hstep, hs2]
      have hlo2 : ∀ d ∈ l, d.cstate ≠ CState.closed := by
        intro d hd
        rcases hmem d hd with h2 | h2
        · exact hlo d h2
        · rw [h2]
          intro hcon
          cases hcon
      have hm2 : 2 * s.queue.length + (l.filter isSendingC).length ≤ n := by
        unfold sendingCount at hm
        omega
      have ihh := ih ⟨l, s.queue, (sid, out) :: s.results, gone ++ s.retired, s.nextId⟩
        hlo2 hm2
      refine ⟨ihh.1, ihh.2.1, ?_⟩
      intro i hi
      apply ihh.2.2
      rcases hi with hi | hi
      · unfold pendingIds queueIds at hi ⊢
        rcases List.mem_append.mp hi with hq2 | hq2
        · exact Or.inl (List.mem_append.mpr (Or.inl hq2))
        · rw [hinf] at hq2
          rcases List.mem_cons.mp hq2 with rfl | hq3
          · right
            unfold resultIds
            simp
          · exact Or.inl (List.mem_append.mpr (Or.inr hq3))
      · right
        unfold resultIds at hi ⊢
        simp [hi]
    | none =>
      have hns : ∀ c ∈ s.conns, isSendingC c = false := by
        intro c hc
        unfold firstSendingId at hfs
        have hfand := Option.map_eq_none'.mp hfs
        have := List.find?_eq_none.mp hfand c hc
        simpa using this
      have hinfnil : inflightIds s.conns = [] := inflight_nil hns
      have hscz : sendingCount s = 0 := by
        unfold sendingCount
        rw [filter_sending_nil hns]
        rfl
      cases hq : s.queue with
      | nil =>
        have hstep : drive cfg (n + 1) s = s := by
          simp [drive, hfs, hq]
        rw [hstep]
        refine ⟨hq, hscz, ?_⟩
        intro i hi
        rcases hi with hi | hi
        · unfold pendingIds queueIds at hi
          rw [hq, hinfnil] at hi
          cases hi
        · exact hi
      | cons rq rest =>
        have hstep : drive cfg (n + 1) s = drive cfg n (dispatch cfg s) := by
          simp [drive, hfs, hq]
        rw [hstep]
        have hm3 : 2 * rest.length + 1 ≤ n := by
          rw [hq] at hm
          simp [List.length_cons] at hm
          omega
        cases ha : assignFirstIdle rq s.conns with
        | some l =>
          have hd : dispatch cfg s = { s with conns := l, queue := rest } := by
            unfold dispatch
            simp only [hq, ha]
          rw [hd]
          obtain ⟨pre, c, post, hcs, hcidle, hl⟩ := assignFirstIdle_some ha
          have hpre : ∀ d ∈ pre, isSendingC d = false := by
            intro d hd2
            exact hns d (by rw [hcs]; exact List.mem_append.mpr (Or.inl hd2))
          have hpost : ∀ d ∈ post, isSendingC d = false := by
            intro d hd2
            refine hns d ?_
            rw [hcs]
            exact List.mem_append.mpr (Or.inr (List.mem_cons_of_mem _ hd2))
          have hlo2 : ∀ d ∈ l, d.cstate ≠ CState.closed := by
            rw [hl]
            intro d hd2
            rcases List.mem_append.mp hd2 with h2 | h2
            · exact hlo d (by rw [hcs]; exact List.mem_append.mpr (Or.inl h2))
            · rcases List.mem_cons.mp h2 with rfl | h3
              · intro hcon
                cases hcon
              · refine hlo d ?_
                rw [hcs]
                exact List.mem_append.mpr (Or.inr (List.mem_cons_of_mem _ h3))
          have hinfl : inflightIds l = [rq.sid] := by
            rw [hl]
            unfold inflightIds
            rw [List.filterMap_append]
            rw [show List.filterMap inflightSid pre = [] from inflight_nil hpre]
            rw [show List.filterMap inflightSid
                ({ c with cstate := CState.sending rq.sid rq.ok } :: post) =
                rq.sid :: List.filterMap inflightSid post from
              inflight_cons_sending rfl]
            rw [show List.filterMap inflightSid post = [] from inflight_nil hpost]
            rfl
          have hcnt : (l.filter isSendingC).length = 1 := by
            rw [hl, List.filter_append, filter_sending_nil hpre]
            simp [List.filter_cons, isSendingC, filter_sending_nil hpost]
          have hm4 : 2 * rest.length + (l.filter isSendingC).length ≤ n := by
            rw [hcnt]
            omega
          have ihh := ih { s with conns := l, queue := rest } hlo2 hm4
          refine ⟨ihh.1, ihh.2.1, ?_⟩
          intro i hi
          apply ihh.2.2
          rcases hi with hi | hi
          · unfold pendingIds queueIds at hi ⊢
            rw [hq, hinfnil] at hi
            simp at hi
            rcases hi with rfl | hi2
            · left
              rw [hinfl]
              simp
            · left
              simp [hi2]
          · exact Or.inr hi
        | none =>
          have hnoidle := assignFirstIdle_none ha
          have hcs0 : s.conns = [] := conns_nil hnoidle hns hlo
          have hlen : s.conns.length < cfg.maxConnections := by
            rw [hcs0]
            simpa using hmax
          have hd : dispatch cfg s =
              ⟨s.conns ++ [(⟨s.nextId, 0, CState.sending rq.sid rq.ok⟩ : Conn)],
               rest, s.results, s.retired, s.nextId + 1⟩ := by
            unfold dispatch
            simp only [hq, ha, if_pos hlen]
          rw [hd]
          have hlo2 : ∀ d ∈ s.conns ++
              [(⟨s.nextId, 0, CState.sending rq.sid rq.ok⟩ : Conn)],
              d.cstate ≠ CState.closed := by
            rw [hcs0]
            intro d hd2
            simp at hd2
            rw [hd2]
            intro hcon
            cases hcon
          have hcnt : ((s.conns ++
              [(⟨s.nextId, 0, CState.sending rq.sid rq.ok⟩ : Conn)]).filter
                isSendingC).length = 1 := by
            rw [hcs0]
            simp [List.filter_cons, isSendingC]
          have hm4 : 2 * rest.length + ((s.conns ++
              [(⟨s.nextId, 0, CState.sending rq.sid rq.ok⟩ : Conn)]).filter
                isSendingC).length ≤ n := by
            rw [hcnt]
            omega
          have ihh := ih
            ⟨s.conns ++ [(⟨s.nextId, 0, CState.sending rq.sid rq.ok⟩ : Conn)],
             rest, s.results, s.retired, s.nextId + 1⟩ hlo2 hm4
          refine ⟨ihh.1, ihh.2.1, ?_⟩
          intro i hi
          apply ihh.2.2
          rcases hi with hi | hi
          · unfold pendingIds queueIds at hi ⊢
            rw [hq, hinfnil] at hi
            simp at hi
            rcases hi with rfl | hi2
            · left
              rw [hcs0]
              simp [inflightIds, inflightSid]
            · left
              simp [hi2]
          · exact Or.inr hi

/-- C1 (modelled from the spec): for a pool limited to maxConnections and a
workload of more concurrently issued sends than connections, no schedule of
dispatch and completion events ever has more than maxConnections
connections in the Sending state, and the driver serving the queue finishes
with an empty queue, nothing in flight, and a recorded outcome for every
issued send: no send is lost and no deadlock occurs. -/
theorem pool_bounded_and_live (cfg : PoolConfig) (reqs : List SendReq)
    (h1 : 1 ≤ cfg.maxConnections) (h2 : cfg.maxConnections < reqs.length) :
    (∀ acts, sendingCount (runPool cfg (initPool reqs) acts) ≤ cfg.maxConnections) ∧
    (drive cfg (2 * reqs.length) (initPool reqs)).queue = [] ∧
    sendingCount (drive cfg (2 * reqs.length) (initPool reqs)) = 0 ∧
    (∀ i, i ∈ reqs.map (fun r => r.sid) →
      i ∈ resultIds (drive cfg (2 * reqs.length) (initPool reqs))) := by
  have hsafe : ∀ acts,
      sendingCount (runPool cfg (initPool reqs) acts) ≤ cfg.maxConnections := by
    intro acts
    exact le_trans (sendingCount_le _)
      (runPool_size acts (initPool reqs) (by simp [initPool]))
  have hlive := drive_spec cfg h1 (2 * reqs.length) (initPool reqs)
    (by intro c hc; simp [initPool] at hc)
    (by simp [initPool, sendingCount])
  refine ⟨hsafe, hlive.1, hlive.2.1, ?_⟩
  intro i hi
  refine hlive.2.2 i (Or.inl ?_)
  unfold pendingIds queueIds initPool
  simpa using Or.inl hi

/-- Witness for pool_bounded_and_live: two connections, three concurrent
sends, one concrete schedule and one concrete delivered send. -/
theorem pool_bounded_and_live_witness :
    sendingCount (runPool ⟨2, 5⟩ (initPool [⟨0, true⟩, ⟨1, false⟩, ⟨2, true⟩])
        [PoolAction.actDispatch, PoolAction.actComplete 0]) ≤
      (⟨2, 5⟩ : PoolConfig).maxConnections ∧
    1 ∈ resultIds (drive ⟨2, 5⟩
        (2 * ([⟨0, true⟩, ⟨1, false⟩, ⟨2, true⟩] : List SendReq).length)
        (initPool [⟨0, true⟩, ⟨1, false⟩, ⟨2, true⟩])) :=
  ⟨(pool_bounded_and_live ⟨2, 5⟩ [⟨0, true⟩, ⟨1, false⟩, ⟨2, true⟩]
      (by decide) (by decide)).1 [PoolAction.actDispatch, PoolAction.actComplete 0],
   (pool_bounded_and_live ⟨2, 5⟩ [⟨0, true⟩, ⟨1, false⟩, ⟨2, true⟩]
      (by decide) (by decide)).2.2.2 1 (by decide)⟩

/-- Assignment keeps the identifier sequence of the connection list. -/
theorem assign_ids {rq : SendReq} {cs l : List Conn}
    (ha : assignFirstIdle rq cs = some l) :
    l.map (fun c => c.id) = cs.map (fun c => c.id) := by
  obtain ⟨pre, c, post, hcs, _, hl⟩ := assignFirstIdle_some ha
  rw [hl, hcs]
  simp

/-- Completion facts: the surviving identifier sequence is a sublist of the
original, every surviving connection is an original one or an original one
returned to idle below the message cap, every newly retired connection is
an original one moved to Closed with its counter grown by at most one, and
under distinct identifiers a retired identifier is gone from the surviving
list. -/
theorem completeList_wf (cfg : PoolConfig) (cid : Nat) : ∀ cs : List Conn,
    ((completeList cfg cid cs).fst.map (fun c => c.id)).Sublist
      (cs.map (fun c => c.id)) ∧
    (∀ d ∈ (completeList cfg cid cs).fst, ∃ c, c ∈ cs ∧ d.id = c.id ∧
      (d = c ∨ (d.msgCount < cfg.maxMessages ∧ d.cstate = CState.idle))) ∧
    (∀ d ∈ (completeList cfg cid cs).snd.fst, ∃ c, c ∈ cs ∧ d.id = c.id ∧
      d.cstate = CState.closed ∧
      (d.msgCount = c.msgCount + 1 ∨ d.msgCount = c.msgCount)) ∧
    ((cs.map (fun c => c.id)).Nodup →
      ∀ d ∈ (completeList cfg cid cs).snd.fst,
        d.id ∉ (completeList cfg cid cs).fst.map (fun c => c.id)) := by
  intro cs
  induction cs with
  | nil =>
    refine ⟨by simp [completeList], ?_, ?_, ?_⟩ <;> simp [completeList]
  | cons c0 cs ih =>
    obtain ⟨ih1, ih2, ih3, ih4⟩ := ih
    by_cases hs : isSendingC c0 = true
    · obtain ⟨sid, ok, hst⟩ := isSendingC_iff.mp hs
      cases hid : c0.id == cid with
      | true =>
        have hideq : c0.id = cid := by simpa using hid
        rcases finishConn_cases cfg c0 sid ok with ⟨hf, _, hlt⟩ | ⟨hf, _, _⟩ | ⟨hf, _⟩
        · rw [completeList_cons_hit_keep hst hideq hf]
          refine ⟨?_, ?_, ?_, ?_⟩
          · simp only [List.map_cons]
            exact List.Sublist.refl _
          · intro d hd
            rcases List.mem_cons.mp hd with rfl | hd2
            · exact ⟨c0, by simp, rfl, Or.inr ⟨hlt, rfl⟩⟩
            · exact ⟨d, by simp [hd2], rfl, Or.inl rfl⟩
          · intro d hd
            cases hd
          · intro _ d hd
            cases hd
        · rw [completeList_cons_hit_drop hst hideq hf]
          refine ⟨?_, ?_, ?_, ?_⟩
          · simp only [List.map_cons]
            exact List.sublist_cons_self _ _
          · intro d hd
            exact ⟨d, List.mem_cons_of_mem _ hd, rfl, Or.inl rfl⟩
          · intro d hd
            simp at hd
            subst hd
            exact ⟨c0, by simp, rfl, rfl, Or.inl rfl⟩
          · intro hnod d hd
            simp at hd
            subst hd
            simp only [List.map_cons, List.nodup_cons] at hnod
            exact hnod.1
        · rw [completeList_cons_hit_drop hst hideq hf]
          refine ⟨?_, ?_, ?_, ?_⟩
          · simp only [List.map_cons]
            exact List.sublist_cons_self _ _
          · intro d hd
            exact ⟨d, List.mem_cons_of_mem _ hd, rfl, Or.inl rfl⟩
          · intro d hd
            simp at hd
            subst hd
            exact ⟨c0, by simp, rfl, rfl, Or.inr rfl⟩
          · intro hnod d hd
            simp at hd
            subst hd
            simp only [List.map_cons, List.nodup_cons] at hnod
            exact hnod.1
      | false =>
        rw [completeList_cons_miss hst hid]
        refine ⟨?_, ?_, ?_, ?_⟩
        · simp only [List.map_cons]
          exact ih1.cons₂ _
        · intro d hd
          rcases List.mem_cons.mp hd with rfl | hd2
          · exact ⟨d, by simp, rfl, Or.inl rfl⟩
          · obtain ⟨c, hc, hdc, hor⟩ := ih2 d hd2
            exact ⟨c, List.mem_cons_of_mem _ hc, hdc, hor⟩
        · intro d hd
          obtain ⟨c, hc, hdc, hcl, hor⟩ := ih3 d hd
          exact ⟨c, List.mem_cons_of_mem _ hc, hdc, hcl, hor⟩
        · intro hnod d hd
          simp only [List.map_cons, List.nodup_cons] at hnod
          have hne : d.id ≠ c0.id := by
            obtain ⟨c, hc, hdc, _, _⟩ := ih3 d hd
            intro he
            apply hnod.1
            rw [← he, hdc]
            exact List.mem_map_of_mem _ hc
          simp only [List.map_cons, List.mem_cons]
          rintro (h | h)
          · exact hne h
          · exact ih4 hnod.2 d hd h
    · rw [completeList_cons_nonsending (by simpa using hs)]
      refine ⟨?_, ?_, ?_, ?_⟩
      · simp only [List.map_cons]
        exact ih1.cons₂ _
      · intro d hd
        rcases List.mem_cons.mp hd with rfl | hd2
        · exact ⟨d, by simp, rfl, Or.inl rfl⟩
        · obtain ⟨c, hc, hdc, hor⟩ := ih2 d hd2
          exact ⟨c, List.mem_cons_of_mem _ hc, hdc, hor⟩
      · intro d hd
        obtain ⟨c, hc, hdc, hcl, hor⟩ := ih3 d hd
        exact ⟨c, List.mem_cons_of_mem _ hc, hdc, hcl, hor⟩
      · intro hnod d hd
        simp only [List.map_cons, List.nodup_cons] at hnod
        have hne : d.id ≠ c0.id := by
          obtain ⟨c, hc, hdc, _, _⟩ := ih3 d hd
          intro he
          apply hnod.1
          rw [← he, hdc]
          exact List.mem_map_of_mem _ hc
        simp only [List.map_cons, List.mem_cons]
        rintro (h | h)
        · exact hne h
        · exact ih4 hnod.2 d hd h

/-- One pool step preserves the well-formedness invariant. -/
theorem poolStep_wf {cfg : PoolConfig} (hmm2 : 1 ≤ cfg.maxMessages)
    {s : PoolState} (hwf : PoolWF cfg s) :
    ∀ a, PoolWF cfg (poolStep cfg s a) := by
  intro a
  cases a with
  | actDispatch =>
    unfold poolStep dispatch
    cases hq : s.queue with
    | nil => exact hwf
    | cons rq rest =>
      cases ha : assignFirstIdle rq s.conns with
      | some l =>
        simp only [ha]
        have hids := assign_ids ha
        obtain ⟨pre, c, post, hcs, hcidle, hl⟩ := assignFirstIdle_some ha
        have hmem : ∀ d ∈ l, d ∈ s.conns ∨
            (d.id = c.id ∧ d.msgCount = c.msgCount ∧ c ∈ s.conns) := by
          rw [hl]
          intro d hd
          rcases List.mem_append.mp hd with h2 | h2
          · exact Or.inl (by rw [hcs]; exact List.mem_append.mpr (Or.inl h2))
          · rcases List.mem_cons.mp h2 with rfl | h3
            · refine Or.inr ⟨rfl, rfl, ?_⟩
              rw [hcs]
              exact List.mem_append.mpr (Or.inr (by simp))
            · refine Or.inl ?_
              rw [hcs]
              exact List.mem_append.mpr (Or.inr (List.mem_cons_of_mem _ h3))
        refine ⟨?_, hwf.retired_lt, ?_, ?_, ?_, hwf.retired_msgs⟩
        · intro d hd
          rcases hmem d hd with h2 | ⟨hid2, _, hcin⟩
          · exact hwf.ids_lt d h2
          · rw [hid2]
            exact hwf.ids_lt c hcin
        · show (l.map (fun c => c.id)).Nodup
          rw [hids]
          exact hwf.ids_nodup
        · intro i hir
          have hold := hwf.retired_out i hir
          show i ∉ l.map (fun c => c.id)
          rw [hids]
          exact hold
        · intro d hd
          rcases hmem d hd with h2 | ⟨_, hmc, hcin⟩
          · exact hwf.live_msgs d h2
          · rw [hmc]
            exact hwf.live_msgs c hcin
      | none =>
        simp only [ha]
        by_cases hlt : s.conns.length < cfg.maxConnections
        · simp only [if_pos hlt]
          refine ⟨?_, ?_, ?_, ?_, ?_, ?_⟩
          · intro d hd
            rcases List.mem_append.mp hd with h2 | h2
            · exact lt_trans (hwf.ids_lt d h2) (Nat.lt_succ_self _)
            · simp at h2
              rw [h2]
              exact Nat.lt_succ_self _
          · intro d hd
            exact lt_trans (hwf.retired_lt d hd) (Nat.lt_succ_self _)
          · show ((s.conns ++
              [(⟨s.nextId, 0, CState.sending rq.sid rq.ok⟩ : Conn)]).map
                (fun c => c.id)).Nodup
            rw [List.map_append, List.nodup_append]
            refine ⟨hwf.ids_nodup, by simp, ?_⟩
            intro x hx
            rcases List.mem_map.mp hx with ⟨d, hdm, rfl⟩
            simp
            exact Nat.ne_of_lt (hwf.ids_lt d hdm)
          · intro i hir
            show i ∉ (s.conns ++
              [(⟨s.nextId, 0, CState.sending rq.sid rq.ok⟩ : Conn)]).map (fun c => c.id)
            rw [List.map_append]
            intro hmem2
            rcases List.mem_append.mp hmem2 with h2 | h2
            · exact hwf.retired_out i hir h2
            · simp at h2
              rcases List.mem_map.mp hir with ⟨d, hdm, rfl⟩
              exact absurd h2 (Nat.ne_of_lt (hwf.retired_lt d hdm))
          · intro d hd
            rcases List.mem_append.mp hd with h2 | h2
            · exact hwf.live_msgs d h2
            · simp at h2
              rw [h2]
              simpa using hmm2
          · exact hwf.retired_msgs
        · simp only [if_neg hlt]
          exact hwf
  | actComplete cid =>
    unfold poolStep completeConn
    obtain ⟨hw1, hw2, hw3, hw4⟩ := completeList_wf cfg cid s.conns
    refine ⟨?_, ?_, ?_, ?_, ?_, ?_⟩
    · intro d hd
      obtain ⟨c, hc, hdc, _⟩ := hw2 d hd
      rw [hdc]
      exact hwf.ids_lt c hc
    · intro d hd
      rcases List.mem_append.mp hd with h2 | h2
      · obtain ⟨c, hc, hdc, _, _⟩ := hw3 d h2
        rw [hdc]
        exact hwf.ids_lt c hc
      · exact hwf.retired_lt d h2
    · exact List.Nodup.sublist hw1 hwf.ids_nodup
    · intro i hir
      have hir2 : i ∈ ((completeList cfg cid s.conns).snd.fst ++ s.retired).map
          (fun c => c.id) := hir
      rw [List.map_append] at hir2
      rcases List.mem_append.mp hir2 with h2 | h2
      · rcases List.mem_map.mp h2 with ⟨d, hdm, rfl⟩
        exact hw4 hwf.ids_nodup d hdm
      · have hold := hwf.retired_out i h2
        intro hin
        exact hold (hw1.subset hin)
    · intro d hd
      obtain ⟨c, hc, _, hor⟩ := hw2 d hd
      rcases hor with heq | ⟨hlt2, _⟩
      · rw [heq]
        exact hwf.live_msgs c hc
      · omega
    · intro d hd
      rcases List.mem_append.mp hd with h2 | h2
      · obtain ⟨c, hc, _, _, hor⟩ := hw3 d h2
        rcases hor with h3 | h3
        · rw [h3]
          exact hwf.live_msgs c hc
        · rw [h3]
          have := hwf.live_msgs c hc
          omega
      · exact hwf.retired_msgs d h2

/-- A whole run preserves the well-formedness invariant. -/
theorem runPool_wf {cfg : PoolConfig} (hm : 1 ≤ cfg.maxMessages) :
    ∀ (acts : List PoolAction) (s : PoolState), PoolWF cfg s →
      PoolWF cfg (runPool cfg s acts) := by
  intro acts
  induction acts with
  | nil => intro s h; exact h
  | cons a as ih =>
    intro s h
    exact ih _ (poolStep_wf hm h a)

/-- The initial pool state is well formed. -/
theorem initPool_wf (cfg : PoolConfig) (reqs : List SendReq) :
    PoolWF cfg (initPool reqs) := by
  refine ⟨?_, ?_, ?_, ?_, ?_, ?_⟩ <;> simp [initPool, connIds, retiredIds]

/-- Completing an errored send on a connection retires that connection in
the Closed state. -/
theorem completeList_hits (cfg : PoolConfig) (cid sid : Nat) :
    ∀ (cs : List Conn) (c : Conn),
      c ∈ cs → c.id = cid → c.cstate = CState.sending sid false →
      (cs.map (fun c => c.id)).Nodup →
      ∃ d ∈ (completeList cfg cid cs).snd.fst,
        d.id = cid ∧ d.cstate = CState.closed := by
  intro cs
  induction cs with
  | nil => intro c hc; cases hc
  | cons c0 cs ih =>
    intro c hc hcid hcst hnod
    rcases List.mem_cons.mp hc with rfl | hc2
    · have hf : finishConn cfg c sid false =
          (none, [{ c with cstate := CState.closed }], (sid, Outcome.failed)) := rfl
      rw [completeList_cons_hit_drop hcst hcid hf]
      exact ⟨{ c with cstate := CState.closed }, by simp, hcid, rfl⟩
    · simp only [List.map_cons, List.nodup_cons] at hnod
      have hne : c0.id ≠ cid := by
        intro he
        apply hnod.1
        rw [he, ← hcid]
        exact List.mem_map_of_mem _ hc2
      have hid0 : (c0.id == cid) = false := by simp [hne]
      by_cases hs0 : isSendingC c0 = true
      · obtain ⟨sid0, ok0, hst0⟩ := isSendingC_iff.mp hs0
        rw [completeList_cons_miss hst0 hid0]
        obtain ⟨d, hd, hdid, hdcl⟩ := ih c hc2 hcid hcst hnod.2
        exact ⟨d, hd, hdid, hdcl⟩
      · rw [completeList_cons_nonsending (by simpa using hs0)]
        obtain ⟨d, hd, hdid, hdcl⟩ := ih c hc2 hcid hcst hnod.2
        exact ⟨d, hd, hdid, hdcl⟩

/-- One pool step never resurrects an identifier below the fresh counter
that is absent from the live set. -/
theorem poolStep_poison {cfg : PoolConfig} {s : PoolState} {cid : Nat}
    (h1 : cid < s.nextId) (h2 : cid ∉ connIds s) :
    ∀ a, cid < (poolStep cfg s a).nextId ∧ cid ∉ connIds (poolStep cfg s a) := by
  intro a
  cases a with
  | actDispatch =>
    unfold poolStep dispatch
    cases hq : s.queue with
    | nil => exact ⟨h1, h2⟩
    | cons rq rest =>
      cases ha : assignFirstIdle rq s.conns with
      | some l =>
        simp only [ha]
        refine ⟨h1, ?_⟩
        show cid ∉ l.map (fun c => c.id)
        rw [assign_ids ha]
        exact h2
      | none =>
        simp only [ha]
        by_cases hlt : s.conns.length < cfg.maxConnections
        · simp only [if_pos hlt]
          refine ⟨lt_trans h1 (Nat.lt_succ_self _), ?_⟩
          show cid ∉ (s.conns ++
            [(⟨s.nextId, 0, CState.sending rq.sid rq.ok⟩ : Conn)]).map (fun c => c.id)
          rw [List.map_append]
          intro hm
          rcases List.mem_append.mp hm with hm2 | hm2
          · exact h2 hm2
          · simp at hm2
            omega
        · simp only [if_neg hlt]
          exact ⟨h1, h2⟩
  | actComplete cid2 =>
    unfold poolStep completeConn
    refine ⟨h1, ?_⟩
    intro hm
    exact h2 ((completeList_wf cfg cid2 s.conns).1.subset hm)

/-- An identifier below the fresh counter that is absent from the live set
stays absent under every further schedule. -/
theorem poison_stable (cfg : PoolConfig) :
    ∀ (acts : List PoolAction) (s : PoolState) (cid : Nat),
      cid < s.nextId → cid ∉ connIds s →
      cid ∉ connIds (runPool cfg s acts) := by
  intro acts
  induction acts with
  | nil => intro s cid _ h2; exact h2
  | cons a as ih =>
    intro s cid h1 h2
    obtain ⟨h1s, h2s⟩ := poolStep_poison h1 h2 a
    exact ih (poolStep cfg s a) cid h1s h2s

/-- C2 (modelled from the spec): a pooled connection that errors during a
send is moved to Closed (it joins the retired set in the Closed state and
leaves the live set), and no later schedule of pool events ever has a live
connection with its identifier again: a poisoned connection never serves a
second request. -/
theorem errored_connection_never_reused (cfg : PoolConfig) (reqs : List SendReq)
    (acts : List PoolAction) (cid sid : Nat) (hm : 1 ≤ cfg.maxMessages)
    (hconn : ∃ c ∈ (runPool cfg (initPool reqs) acts).conns,
      c.id = cid ∧ c.cstate = CState.sending sid false) :
    (∃ c ∈ (completeConn cfg cid (runPool cfg (initPool reqs) acts)).retired,
      c.id = cid ∧ c.cstate = CState.closed) ∧
    cid ∉ connIds (completeConn cfg cid (runPool cfg (initPool reqs) acts)) ∧
    ∀ acts2, cid ∉ connIds (runPool cfg
      (completeConn cfg cid (runPool cfg (initPool reqs) acts)) acts2) := by
  obtain ⟨c, hcmem, hcid, hcst⟩ := hconn
  have hwf := runPool_wf hm acts (initPool reqs) (initPool_wf cfg reqs)
  have hhits := completeList_hits cfg cid sid
    (runPool cfg (initPool reqs) acts).conns c hcmem hcid hcst hwf.ids_nodup
  obtain ⟨d, hd, hdid, hdcl⟩ := hhits
  have hout : cid ∉ connIds (completeConn cfg cid (runPool cfg (initPool reqs) acts)) := by
    have h4 := (completeList_wf cfg cid
      (runPool cfg (initPool reqs) acts).conns).2.2.2 hwf.ids_nodup d hd
    rw [hdid] at h4
    exact h4
  refine ⟨⟨d, ?_, hdid, hdcl⟩, hout, ?_⟩
  · show d ∈ (completeList cfg cid
      (runPool cfg (initPool reqs) acts).conns).snd.fst ++
        (runPool cfg (initPool reqs) acts).retired
    exact List.mem_append.mpr (Or.inl hd)
  · intro acts2
    refine poison_stable cfg acts2 _ cid ?_ hout
    show cid < (runPool cfg (initPool reqs) acts).nextId
    rw [← hcid]
    exact hwf.ids_lt c hcmem

/-- Witness for errored_connection_never_reused: one send scripted to fail,
dispatched onto connection 0, which after the errored completion is gone
from the live set and stays gone. -/
theorem errored_connection_never_reused_witness :
    0 ∉ connIds (completeConn ⟨2, 2⟩ 0
      (runPool ⟨2, 2⟩ (initPool [⟨0, false⟩]) [PoolAction.actDispatch])) ∧
    0 ∉ connIds (runPool ⟨2, 2⟩
      (completeConn ⟨2, 2⟩ 0
        (runPool ⟨2, 2⟩ (initPool [⟨0, false⟩]) [PoolAction.actDispatch]))
      [PoolAction.actDispatch]) :=
  ⟨(errored_connection_never_reused ⟨2, 2⟩ [⟨0, false⟩] [PoolAction.actDispatch]
      0 0 (by decide) (by decide)).2.1,
   (errored_connection_never_reused ⟨2, 2⟩ [⟨0, false⟩] [PoolAction.actDispatch]
      0 0 (by decide) (by decide)).2.2 [PoolAction.actDispatch]⟩

/-- C3 (modelled from the spec): in every reachable pool state, every live
connection has completed strictly fewer than maxMessages sends (so any
connection the pool can still assign is below the cap), every retired
connection has completed at most maxMessages sends, and a retired
connection identifier never reappears among the live connections: the send
after the maxMessages-th on a connection runs on a different connection
instance. -/
theorem connection_message_cap (cfg : PoolConfig) (reqs : List SendReq)
    (acts : List PoolAction) (hm : 1 ≤ cfg.maxMessages) :
    (∀ c ∈ (runPool cfg (initPool reqs) acts).conns,
      c.msgCount < cfg.maxMessages) ∧
    (∀ c ∈ (runPool cfg (initPool reqs) acts).retired,
      c.msgCount ≤ cfg.maxMessages) ∧
    (∀ i ∈ retiredIds (runPool cfg (initPool reqs) acts),
      i ∉ connIds (runPool cfg (initPool reqs) acts)) := by
  have hwf := runPool_wf hm acts (initPool reqs) (initPool_wf cfg reqs)
  refine ⟨?_, hwf.retired_msgs, hwf.retired_out⟩
  intro c hc
  have := hwf.live_msgs c hc
  omega

/-- Witness for connection_message_cap at a dispatched one-send workload. -/
theorem connection_message_cap_witness :
    (⟨0, 0, CState.sending 0 true⟩ : Conn).msgCount <
      (⟨2, 2⟩ : PoolConfig).maxMessages :=
  (connection_message_cap ⟨2, 2⟩ [⟨0, true⟩] [PoolAction.actDispatch]
    (by decide)).1 ⟨0, 0, CState.sending 0 true⟩ (by decide)

end FlunMail
